import Mathlib

/-!
Verification development for the FlashDir directory-scan engine
(src-tauri/src: scan.rs, disk_cache.rs, commands.rs, binary_protocol.rs).

The Rust code is shallowly embedded: machine integers (i64, usize) are
modelled as Int / Nat (the quantities involved — file sizes, cache byte
counts — stay far below 2^63, so wraparound never matters), strings are
Lean Strings (SmartString / String in Rust; Rust `.len()` is byte length
and Lean `.length` is char count, which coincide on everything measured
here), and fallible operations return Option / Except.

The only floating-point values any claim depends on are the scaled sizes
inside format_size. They are modelled exactly as integer fractions with
power-of-two denominators (structure F64 below): the i64→f64 conversion
is modelled as the rounding it performs — to 53 significant bits, nearest,
ties to even (f64Round below; the identity below 2^53) — and every
subsequent operation (division by 1024, integer comparison, fixed-precision
decimal rendering) is exact on such values in IEEE double precision, so
the fraction model coincides with the binary one everywhere. f64 fields
that are merely carried around (scan_time and the timing phases) are
modelled as ℚ and never computed on.
-/

namespace FlashDir

/-! ### Size formatter (scan.rs, format_size) -/

/-- scan.rs: `SIZE_UNITS = ["B", "KB", "MB", "GB", "TB"]`. -/
def SIZE_UNITS : List String := ["B", "KB", "MB", "GB", "TB"]

/-- Round `num / den` (with `den > 0`) to the nearest integer, ties to even —
the rounding Rust's float Display with a fixed precision performs on an
exactly representable value. -/
def roundHalfEven (num den : Int) : Int :=
  let q := num / den
  let r := num % den
  if 2 * r < den then q
  else if den < 2 * r then q + 1
  else if q % 2 = 0 then q else q + 1

/-- Left-pad a digit string with zeros to length `k`. -/
def leftPad (s : String) (k : Nat) : String :=
  String.mk (List.replicate (k - s.length) '0') ++ s

/-- Exact model of the f64 values occurring in format_size: a fraction
`n / d` where `n` carries at most 53 significant bits (guaranteed by
f64Round at the entry point) and `d` is a positive power of two. Every
f64 operation format_size performs on such values — dividing by 1024,
comparing with an integer constant, fixed-precision decimal rendering —
is exact in IEEE double precision, so the fraction model coincides with
the binary one. -/
structure F64 where
  n : Int
  d : Int
deriving DecidableEq

/-- The rounding the i64→f64 conversion performs: integers below 2^53 in
magnitude are exact; larger ones are rounded to 53 significant bits,
nearest, ties to even (the i64 range never overflows f64, so no infinity
case arises). -/
def f64Round (i : Int) : Int :=
  if i.natAbs < 2 ^ 53 then i
  else
    let n := i.natAbs
    let k := n.log2 - 52
    let q := n / 2 ^ k
    let r := n % 2 ^ k
    let q2 := if 2 * r < 2 ^ k then q
      else if 2 ^ k < 2 * r then q + 1
      else if q % 2 = 0 then q else q + 1
    i.sign * (q2 * 2 ^ k : Nat)

/-- `bytes as f64`. -/
def F64.ofInt (i : Int) : F64 := ⟨f64Round i, 1⟩

/-- `size / 1024.0` (exact: only the exponent changes). -/
def F64.div1024 (x : F64) : F64 := ⟨x.n, x.d * 1024⟩

/-- `size < c` for an integer constant `c` (`d` is positive). -/
def F64.ltInt (x : F64) (c : Int) : Bool := x.n < c * x.d

/-- `1024.0 <= size` style comparison (`d` is positive). -/
def F64.geInt (x : F64) (c : Int) : Bool := c * x.d ≤ x.n

/-- The rational value an F64 fraction denotes (used in statements only). -/
def F64.val (x : F64) : ℚ := (x.n : ℚ) / (x.d : ℚ)

/-- Rust `format!("{:.prec}", v)` on an exactly representable nonnegative
double `v = x.n / x.d`. -/
def fmtFixed (x : F64) (prec : Nat) : String :=
  let p : Int := 10 ^ prec
  let m := roundHalfEven (x.n * p) x.d
  if prec = 0 then toString m
  else toString (m / p) ++ "." ++ leftPad (toString (m % p).natAbs) prec

/-- The `while size >= 1024.0 && unit_index < 4` loop of format_size,
with explicit fuel `4 - unit_index` (the body increments `unit_index`,
so the loop runs at most `4 - unit_index` times). -/
def scaleLoopFuel : Nat → F64 → Nat → F64 × Nat
  | 0, size, u => (size, u)
  | fuel + 1, size, u =>
    if size.geInt 1024 ∧ u < 4 then scaleLoopFuel fuel size.div1024 (u + 1) else (size, u)

def scaleLoop (size : F64) (u : Nat) : F64 × Nat := scaleLoopFuel (4 - u) size u

/-- scan.rs, `format_size(bytes: i64) -> CompactString`. -/
def format_size (bytes : Int) : String :=
  if bytes < 1024 then toString bytes ++ " B"
  else
    let su := scaleLoop (F64.ofInt bytes) 0
    let unitName := SIZE_UNITS[su.2]!
    if su.1.ltInt 10 then fmtFixed su.1 2 ++ " " ++ unitName
    else if su.1.ltInt 100 then fmtFixed su.1 1 ++ " " ++ unitName
    else fmtFixed su.1 0 ++ " " ++ unitName

/-- Unit index as the spec words it: the largest unit among B..TB for which
the scaled value is at least 1, capped at TB — written out for
`bytes ≥ 1024`. -/
def specUnitIndex (bytes : Int) : Nat :=
  if bytes < 1024 ^ 2 then 1
  else if bytes < 1024 ^ 3 then 2
  else if bytes < 1024 ^ 4 then 3
  else 4

/-- The formatter as the spec words it: inputs below 1024 bytes render as
`"<bytes> B"` with no decimals; otherwise pick the largest unit with scaled
value ≥ 1 (capped at TB) and render with 2 / 1 / 0 decimals according to
the `v < 10` / `v < 100` buckets. -/
def format_size_spec (bytes : Int) : String :=
  if bytes < 1024 then toString bytes ++ " B"
  else
    let u := specUnitIndex bytes
    let v : F64 := ⟨f64Round bytes, 1024 ^ u⟩
    (if v.ltInt 10 then fmtFixed v 2 else if v.ltInt 100 then fmtFixed v 1 else fmtFixed v 0)
      ++ " " ++ SIZE_UNITS[u]!

/-! ### Filesystem model and parallel walker (scan.rs, scan_directory_optimized_v4)

The walker visits every non-symlink entry under the root with a pool of
workers fed from a shared directory queue; the set of emitted records does
not depend on the interleaving, so it is modelled as a recursive traversal
of an inductive tree. A directory entry carries its metadata (name, file
size, dir/symlink flag), which is what `fs::read_dir` yields. -/

mutual
inductive FsNode where
  | file (name : String) (size : Int) : FsNode
  | dir (name : String) (children : FsForest) : FsNode
  | symlink (name : String) : FsNode
deriving DecidableEq

inductive FsForest where
  | nil : FsForest
  | cons (node : FsNode) (rest : FsForest) : FsForest
deriving DecidableEq
end

def FsNode.name : FsNode → String
  | .file nm _ => nm
  | .dir nm _ => nm
  | .symlink nm => nm

def FsForest.names : FsForest → List String
  | .nil => []
  | .cons node rest => node.name :: rest.names

/-- A real filesystem name: nonempty and without a path separator. -/
def wfName (s : String) : Bool := !(s = "") && !s.data.contains '/'

mutual
/-- Well-formedness a real directory tree always has: every entry name is a
real filesystem name and sibling names are distinct (so every emitted
relative path is distinct, matching the DashMap keyed by rel_path). -/
def wfNode : FsNode → Bool
  | .file nm _ => wfName nm
  | .symlink nm => wfName nm
  | .dir nm cs => wfName nm && wfChildren cs && decide (cs.names.Pairwise (· ≠ ·))

def wfChildren : FsForest → Bool
  | .nil => true
  | .cons node rest => wfNode node && wfChildren rest
end

def wfForest (f : FsForest) : Bool := wfChildren f && decide (f.names.Pairwise (· ≠ ·))

/-- The record the walker pushes per entry (struct ItemInternal): the
relative path, the basename, the file size (0 for directories), and the
directory flag. -/
structure RawEntry where
  path : String
  name : String
  size : Int
  is_dir : Bool
deriving DecidableEq

/-- The root-relative, forward-slash path of a child named `nm` of the
directory whose root-relative path is `pre` — the result of
`entry_path.strip_prefix(root)` followed by `\` → `/` normalization.
The root itself is the empty string. -/
def joinRel (pre nm : String) : String :=
  if pre = "" then nm else pre ++ "/" ++ nm

mutual
/-- One walker step over a directory entry: symlinks are skipped, files are
emitted and recorded in file_entries, directories are emitted and their
contents walked (the shared queue reaches every pushed directory). -/
def walkNode (pre : String) : FsNode → List RawEntry × List (String × Int)
  | .symlink _ => ([], [])
  | .file nm sz =>
    let rel := joinRel pre nm
    ([⟨rel, nm, sz, false⟩], [(rel, sz)])
  | .dir nm cs =>
    let rel := joinRel pre nm
    let rest := walkForest rel cs
    (⟨rel, nm, 0, true⟩ :: rest.1, rest.2)

def walkForest (pre : String) : FsForest → List RawEntry × List (String × Int)
  | .nil => ([], [])
  | .cons node rest =>
    let a := walkNode pre node
    let b := walkForest pre rest
    (a.1 ++ b.1, a.2 ++ b.2)
end

/-! ### Aggregator (scan.rs, the dir_sizes loop) -/

/-- All proper prefixes of `l` that end just before a '/' — the strings the
`while let Some(slash_pos) = file_path[pos..].find('/')` loop visits, in
order of the slash positions. -/
def slashPrefixesL : List Char → List (List Char)
  | [] => []
  | c :: cs =>
    (if c = '/' then [([] : List Char)] else []) ++ (slashPrefixesL cs).map (c :: ·)

def slashPrefixes (s : String) : List String := (slashPrefixesL s.data).map String.mk

/-- `dir_sizes.entry(k).and_modify(|v| *v += sz).or_insert(sz)` on a map
whose absent keys read as 0. -/
def addToDir (m : String → Int) (k : String) (sz : Int) : String → Int :=
  fun p => if p = k then m p + sz else m p

/-- The per-file body of the dir_sizes loop: add the file's size to every
ancestor directory (each prefix ending before a '/'), then to the root
(the empty string). -/
def fileDirAdd (m : String → Int) (fpath : String) (sz : Int) : String → Int :=
  addToDir ((slashPrefixes fpath).foldl (fun acc pre => addToDir acc pre sz) m) "" sz

/-- The dir_sizes map built from the file_entries list. The source runs the
per-file bodies in parallel and merges commuting updates; the fold is the
same function of the list. -/
def dirSizes (files : List (String × Int)) : String → Int :=
  files.foldl (fun m fs => fileDirAdd m fs.1 fs.2) (fun _ => 0)

/-- struct Item of scan.rs. -/
structure Item where
  path : String
  name : String
  size : Int
  size_formatted : String
  is_dir : Bool
deriving DecidableEq

/-- Finalization of one ItemInternal: directories read their size from
dir_sizes (absent → 0), files keep theirs; sizes are formatted. -/
def finalizeItem (ds : String → Int) (r : RawEntry) : Item :=
  let size := if r.is_dir then ds r.path else r.size
  ⟨r.path, r.name, size, format_size size, r.is_dir⟩

/-- Descending-size comparator: `items_vec.sort_unstable_by(|a, b|
b.size.cmp(&a.size))` orders so every later item's size is ≤ every earlier
one's. -/
def bySizeDesc (a b : Item) : Bool := decide (b.size ≤ a.size)

/-- struct ScanResult of scan.rs, restricted to the fields the claims are
about (the timing / perf metadata other than cache_source carries no
claim content; scan_time is kept because cache hits zero it). -/
structure ScanResultM where
  items : List Item
  total_size : Int
  total_size_formatted : String
  scan_time : ℚ
  path : String
deriving DecidableEq

/-- scan_directory_optimized_v4 followed by the orchestrator's assembly of
ScanResult: walk the tree, sum the file sizes into total_size, aggregate
per-directory sizes, finalize and sort descending by size. `inputPath` is
the path string as given by the caller and `elapsed` the measured wall
time. -/
def scanTree (tree : FsForest) (inputPath : String) (elapsed : ℚ) : ScanResultM :=
  let w := walkForest "" tree
  let total : Int := (w.2.map (fun fs => fs.2)).sum
  let ds := dirSizes w.2
  { items := (w.1.map (finalizeItem ds)).mergeSort bySizeDesc
    total_size := total
    total_size_formatted := format_size total
    scan_time := elapsed
    path := inputPath }

/-! ### Memory cache (scan.rs, ScanCache over lru::LruCache) -/

/-- struct CacheEntry: the shared scan result, the timestamp stored in the
dir_mtime field, and the estimated byte size. Timestamps
(chrono::DateTime values) are modelled as Int seconds. -/
structure CacheEntryM where
  result : ScanResultM
  dir_mtime : Int
  size : Nat
deriving DecidableEq

/-- struct ScanCache. The LruCache is a list of key/entry pairs, most
recently used first; `maxEntries` is the LruCache capacity. -/
structure ScanCacheM where
  entries : List (String × CacheEntryM)
  maxEntries : Nat
  maxSizeBytes : Nat
deriving DecidableEq

/-- ScanCache::new(30, 200): capacity 30 entries, 200 * 1024 * 1024 byte
budget (the global SCAN_CACHE instance). -/
def ScanCacheM.new (maxEntries maxSizeMb : Nat) : ScanCacheM :=
  ⟨[], maxEntries, maxSizeMb * 1024 * 1024⟩

def initialScanCache : ScanCacheM := ScanCacheM.new 30 200

/-- `std::mem::size_of::<Item>()` on the 64-bit targets the app ships on
(three 24-byte SmartStrings, an i64, a bool, padding). The proofs below
depend only on this being a fixed per-item constant, not on its value. -/
def sizeOfItemStruct : Nat := 88

/-- `std::mem::size_of::<Arc<Vec<Item>>>()` on a 64-bit target. -/
def sizeOfArcVec : Nat := 8

/-- ScanCache::estimate_size. -/
def estimateSize (r : ScanResultM) : Nat :=
  (r.items.map (fun it =>
    sizeOfItemStruct + it.path.length + it.name.length + it.size_formatted.length)).sum
    + sizeOfArcVec

/-- `cache.iter().map(|(_, e)| e.size).sum()`. -/
def ScanCacheM.sumSizes (c : ScanCacheM) : Nat :=
  (c.entries.map (fun kv => kv.2.size)).sum

/-- LruCache::get: on a hit the entry moves to the most-recent position. -/
def ScanCacheM.getE (c : ScanCacheM) (k : String) : Option CacheEntryM × ScanCacheM :=
  match c.entries.find? (fun kv => kv.1 = k) with
  | none => (none, c)
  | some kv =>
    (some kv.2, { c with entries := kv :: c.entries.filter (fun x => ¬(x.1 = k)) })

/-- LruCache::put: replace an existing key (promoting it) or insert at the
most-recent position, evicting the least recently used entry when the
capacity is reached. -/
def ScanCacheM.lruPut (c : ScanCacheM) (k : String) (v : CacheEntryM) : ScanCacheM :=
  let removed := c.entries.filter (fun x => ¬(x.1 = k))
  let kept := if removed.length < c.maxEntries then removed else removed.take (c.maxEntries - 1)
  { c with entries := (k, v) :: kept }

/-- LruCache::pop_lru: drop the least recently used entry. -/
def ScanCacheM.popLru (c : ScanCacheM) : ScanCacheM :=
  { c with entries := c.entries.dropLast }

/-- The `while cache.iter()...sum() + entry_size > self.max_size_bytes &&
!cache.is_empty() { cache.pop_lru(); }` loop of ScanCache::insert. -/
def ScanCacheM.evictLoop (c : ScanCacheM) (entrySize : Nat) : ScanCacheM :=
  if h : c.sumSizes + entrySize > c.maxSizeBytes ∧ c.entries ≠ [] then
    ScanCacheM.evictLoop c.popLru entrySize
  else c
termination_by c.entries.length
decreasing_by
  simp only [ScanCacheM.popLru, List.length_dropLast]
  have : c.entries.length ≠ 0 := fun hl => h.2 (List.length_eq_zero.mp hl)
  omega

/-- ScanCache::insert. `now` is the value of `chrono::Local::now()` at the
moment of the call — this, not the probed root mtime, is what the source
stores in the dir_mtime field. -/
def ScanCacheM.insert (c : ScanCacheM) (now : Int) (k : String) (r : ScanResultM) : ScanCacheM :=
  let entrySize := estimateSize r
  let c1 := if c.sumSizes + entrySize > c.maxSizeBytes then c.evictLoop entrySize else c
  c1.lruPut k ⟨r, now, entrySize⟩

/-- ScanCache::invalidate: remove every key that starts with `path`. -/
def ScanCacheM.invalidate (c : ScanCacheM) (path : String) : ScanCacheM :=
  { c with entries := c.entries.filter (fun kv => ¬(path.isPrefixOf kv.1)) }

/-! ### Disk cache (disk_cache.rs, DiskCache over sqlite) -/

/-- One row of the scan_cache table. The data BLOB is the bincode
serialization of a ScanResult; bincode round-trips, so the row carries the
result itself, and the serialized byte length is carried separately (it is
supplied by the caller because the byte length of the encoding is not a
function of this model). -/
structure DiskRowM where
  path : String
  dataResult : ScanResultM
  dir_mtime : Int
  created_at : Int
  size : Nat
deriving DecidableEq

/-- struct DiskCache: the table rows, the in-memory current_size_mb
counter, and max_size_mb (500 for the singleton). -/
structure DiskCacheM where
  rows : List DiskRowM
  currentSizeMb : Nat
  maxSizeMb : Nat
deriving DecidableEq

def byCreatedAsc (a b : DiskRowM) : Bool := decide (a.created_at ≤ b.created_at)

/-- DiskCache::get(path, dir_mtime): look the row up by primary key; on a
row with `dir_mtime ≥` the probe, bump its created_at to now and return
its result. -/
def DiskCacheM.get (d : DiskCacheM) (k : String) (probedMtime now : Int) :
    Option ScanResultM × DiskCacheM :=
  match d.rows.find? (fun row => row.path = k) with
  | none => (none, d)
  | some row =>
    if row.dir_mtime ≥ probedMtime then
      (some row.dataResult,
        { d with rows := d.rows.map (fun x =>
            if x.path = k then { x with created_at := now } else x) })
    else (none, d)

/-- DiskCache::maybe_cleanup(new_entry_size): when the counter's total plus
the new entry exceeds the bound, delete the
`((new_size - max_bytes + max_bytes/4) / 1024 / 1024).max(1)` rows with the
smallest created_at (the SQL deletes by `ORDER BY created_at ASC LIMIT n`). -/
def DiskCacheM.maybeCleanup (d : DiskCacheM) (newEntrySize : Nat) : DiskCacheM :=
  let maxBytes := d.maxSizeMb * 1024 * 1024
  let newSize := d.currentSizeMb * 1024 * 1024 + newEntrySize
  if newSize > maxBytes then
    let toRemove := Nat.max ((newSize - maxBytes + maxBytes / 4) / 1024 / 1024) 1
    { d with rows := (d.rows.mergeSort byCreatedAsc).drop toRemove }
  else d

/-- DiskCache::insert: cleanup, then `INSERT OR REPLACE` the row, then add
`size / 1024 / 1024` to the counter. `size` is the bincode length of the
result and `now` the wall clock. -/
def DiskCacheM.insert (d : DiskCacheM) (k : String) (r : ScanResultM)
    (dirMtime : Int) (size : Nat) (now : Int) : DiskCacheM :=
  let d1 := d.maybeCleanup size
  { d1 with
    rows := ⟨k, r, dirMtime, now, size⟩ :: d1.rows.filter (fun row => ¬(row.path = k))
    currentSizeMb := d1.currentSizeMb + size / 1024 / 1024 }

/-- DiskCache::invalidate: delete the key and every key having it as a
prefix (`path = ?1 OR path LIKE '<path>%'`). -/
def DiskCacheM.invalidate (d : DiskCacheM) (path : String) : DiskCacheM :=
  { d with rows := d.rows.filter (fun row => ¬(path.isPrefixOf row.path)) }

/-! ### Orchestrator (scan.rs, scan_directory) -/

/-- Both cache tiers plus nothing else the claims mention. -/
structure EngineState where
  mem : ScanCacheM
  disk : DiskCacheM
deriving DecidableEq

def initialEngine : EngineState := ⟨initialScanCache, ⟨[], 0, 500⟩⟩

/-- One scan request together with the ambient facts the source reads from
the environment: the canonicalized key, the probed root mtime, the tree
currently on disk under the root, the wall clock, the measured scan time,
and the bincode length of the fresh result. -/
structure ScanRequest where
  path : String
  key : String
  probedMtime : Int
  tree : FsForest
  now : Int
  elapsed : ℚ
  diskEntrySize : Nat
  force : Bool
deriving DecidableEq

/-- What scan_directory hands back: the result and the perf_metrics
cache_source marker ("memory" / "disk" / none). -/
structure ScanResponse where
  result : ScanResultM
  cacheSource : Option String
deriving DecidableEq

/-- Cache hits return the shared result with scan_time overwritten to 0.0. -/
def setScanTimeZero (r : ScanResultM) : ScanResultM := { r with scan_time := 0 }

/-- The cold path: invalidate the key in both tiers, run the walker and
aggregator, insert into the memory cache (which stamps the entry with the
wall clock) and the disk cache, and return the fresh result. -/
def freshScan (st : EngineState) (q : ScanRequest) : ScanResponse × EngineState :=
  let mem1 := st.mem.invalidate q.key
  let disk1 := st.disk.invalidate q.key
  let r := scanTree q.tree q.path q.elapsed
  let mem2 := mem1.insert q.now q.key r
  let disk2 := disk1.insert q.key r q.probedMtime q.diskEntrySize q.now
  (⟨r, none⟩, ⟨mem2, disk2⟩)

/-- The disk probe taken after a memory miss: a disk hit is copied into the
memory tier (stamped with the wall clock) and returned with source
"disk"; a miss falls through to the cold path. -/
def diskProbeOrFresh (st : EngineState) (q : ScanRequest) : ScanResponse × EngineState :=
  match st.disk.get q.key q.probedMtime q.now with
  | (some r, disk1) =>
    let mem2 := st.mem.insert q.now q.key r
    (⟨setScanTimeZero r, some "disk"⟩, ⟨mem2, disk1⟩)
  | (none, disk1) => freshScan ⟨st.mem, disk1⟩ q

/-- scan_directory after validation: with force_refresh the probes are
skipped; otherwise the memory tier is probed first (the LruCache get
promotes the entry even when its mtime is stale), a memory entry with
`dir_mtime ≥` the probed root mtime is returned with source "memory",
and anything else falls to the disk probe. -/
def scanStep (st : EngineState) (q : ScanRequest) : ScanResponse × EngineState :=
  if q.force then freshScan st q
  else
    match st.mem.getE q.key with
    | (some e, mem1) =>
      if e.dir_mtime ≥ q.probedMtime then
        (⟨setScanTimeZero e.result, some "memory"⟩, ⟨mem1, st.disk⟩)
      else diskProbeOrFresh ⟨mem1, st.disk⟩ q
    | (none, mem1) => diskProbeOrFresh ⟨mem1, st.disk⟩ q

/-! ### Validation (scan.rs, scan_directory lines 262-292) -/

/-- The error kinds scan_directory surfaces, in the spec's names. The
source messages are 路径不能为空 (InvalidInput), 无法访问路径 /
路径规范化失败 (NotAccessible), 不是目录 (NotADirectory). -/
inductive ScanError where
  | invalidInput
  | notAccessible
  | notADirectory
deriving DecidableEq

/-- What the filesystem answers for the requested path: `fs::metadata`
(none = error, some b = metadata with is_dir() = b) and
`fs::canonicalize` (none = error). -/
structure FsView where
  statResult : Option Bool
  canonicalResult : Option String
deriving DecidableEq

/-- Rust str::trim: drop whitespace from both ends (model of the
`path.trim().is_empty()` check; String.trim in Lean is defined by
well-founded recursion on byte positions, so an equivalent structural
definition over the char list is used). -/
def strTrim (s : String) : String :=
  String.mk ((s.data.dropWhile Char.isWhitespace).reverse.dropWhile
    Char.isWhitespace).reverse

/-- The validation prefix of scan_directory, in source order: trimmed-empty
check, metadata, is_dir, canonicalize; returns the canonical key. -/
def validateScan (path : String) (fsv : FsView) : Except ScanError String :=
  if strTrim path = "" then .error .invalidInput
  else
    match fsv.statResult with
    | none => .error .notAccessible
    | some isDir =>
      if ¬isDir then .error .notADirectory
      else
        match fsv.canonicalResult with
        | none => .error .notAccessible
        | some c => .ok c

/-- scan_directory end to end: validate, then run the cache/walk state
machine. Per-entry filesystem errors inside the walk are absorbed by the
walker (`filter_map(Result::ok)`, `unwrap_or(0)`), so a request that
passes validation always produces a result. -/
def scanDirectoryM (st : EngineState) (path : String) (fsv : FsView)
    (probedMtime : Int) (tree : FsForest) (now : Int) (elapsed : ℚ)
    (diskEntrySize : Nat) (force : Bool) :
    Except ScanError (ScanResponse × EngineState) :=
  match validateScan path fsv with
  | .error e => .error e
  | .ok key => .ok (scanStep st ⟨path, key, probedMtime, tree, now, elapsed, diskEntrySize, force⟩)

/-! ### Binary payload (binary_protocol.rs, BinaryPayload::from_data) -/

structure BinaryPayloadM where
  data : List Nat
  compressed : Bool
  original_size : Nat
deriving DecidableEq

/-- BinaryPayload::from_data. The zstd compression branch in the source is
behind `#[cfg(feature = "zstd")]`, which the shipped build does not enable
— and cannot: the branch reads `compress_threshold` while the parameter is
spelled `_compress_threshold`, so the crate does not compile with the
feature on. The compiled function therefore always returns the raw
serialization with `compressed = false`. `serialize` stands for
`bincode::serialize` at the payload type. -/
def BinaryPayload.from_data {α : Type} (serialize : α → List Nat) (value : α)
    (_compressThreshold : Nat) : BinaryPayloadM :=
  let serialized := serialize value
  ⟨serialized, false, serialized.length⟩

/-! ### Memory cache stats (commands.rs, get_memory_cache_stats) -/

structure MemoryCacheStats where
  max_entries : Nat
  max_size_mb : Nat
  current_entries : Nat
  current_size_mb : ℚ
deriving DecidableEq

/-- commands.rs, get_memory_cache_stats: returns literals; the current
entry count and size are hard-coded to zero (the comment in the source
reads 需要实现获取逻辑 — "fetch logic still to be implemented"). -/
def get_memory_cache_stats (_cache : ScanCacheM) : MemoryCacheStats :=
  ⟨30, 200, 0, 0⟩

/-- Sorted by size in non-increasing order: every adjacent pair is
non-ascending. -/
def SortedDesc (l : List Item) : Prop :=
  List.Chain' (fun a b : Item => b.size ≤ a.size) l

/-- The invariant the claims state of both cache tiers: every stored
result has its items sorted descending by size. -/
def EngineSorted (st : EngineState) : Prop :=
  (∀ kv ∈ st.mem.entries, SortedDesc kv.2.result.items) ∧
    (∀ row ∈ st.disk.rows, SortedDesc row.dataResult.items)

/-! ## Lemmas: size formatter -/

lemma scaleLoopFuel_stop (fuel : Nat) (x : F64) (u : Nat)
    (h : ¬(x.geInt 1024 = true ∧ u < 4)) : scaleLoopFuel fuel x u = (x, u) := by
  cases fuel <;> simp only [scaleLoopFuel] <;> simp [h]

lemma scaleLoopFuel_step (fuel : Nat) (x : F64) (u : Nat)
    (h1 : x.geInt 1024 = true) (h2 : u < 4) :
    scaleLoopFuel (fuel + 1) x u = scaleLoopFuel fuel x.div1024 (u + 1) := by
  simp [scaleLoopFuel, h1, h2]

lemma f64Round_eq_self (i : Int) (h : i.natAbs < 2 ^ 53) : f64Round i = i := by
  rw [f64Round, if_pos h]

lemma f64Round_small (i : Int) (h0 : 0 ≤ i) (h : i < 2 ^ 53) : f64Round i = i := by
  apply f64Round_eq_self
  have := Int.natAbs_of_nonneg h0
  omega

lemma f64Round_ge_pow40 (b : Int) (hb : 2 ^ 40 ≤ b) : 2 ^ 40 ≤ f64Round b := by
  rw [f64Round]
  split_ifs with h
  · exact hb
  · push_neg at h
    have hbpos : 0 < b := lt_of_lt_of_le (by norm_num) hb
    have hn0 : b.natAbs ≠ 0 := by omega
    have hsign : b.sign = 1 := Int.sign_eq_one_iff_pos.mpr hbpos
    rw [hsign, one_mul]
    have hlog : 53 ≤ b.natAbs.log2 := (Nat.le_log2 hn0).mpr h
    have hq : 2 ^ 52 ≤ b.natAbs / 2 ^ (b.natAbs.log2 - 52) := by
      calc 2 ^ 52 = 2 ^ b.natAbs.log2 / 2 ^ (b.natAbs.log2 - 52) := by
            rw [Nat.pow_div (by omega) (by norm_num)]
            congr 1
            omega
        _ ≤ b.natAbs / 2 ^ (b.natAbs.log2 - 52) :=
            Nat.div_le_div_right (Nat.log2_self_le hn0)
    have hq2 : 2 ^ 52
        ≤ (if 2 * (b.natAbs % 2 ^ (b.natAbs.log2 - 52)) < 2 ^ (b.natAbs.log2 - 52) then
            b.natAbs / 2 ^ (b.natAbs.log2 - 52)
          else if 2 ^ (b.natAbs.log2 - 52) < 2 * (b.natAbs % 2 ^ (b.natAbs.log2 - 52)) then
            b.natAbs / 2 ^ (b.natAbs.log2 - 52) + 1
          else if b.natAbs / 2 ^ (b.natAbs.log2 - 52) % 2 = 0 then
            b.natAbs / 2 ^ (b.natAbs.log2 - 52)
          else b.natAbs / 2 ^ (b.natAbs.log2 - 52) + 1) := by
      split_ifs <;> omega
    have hfin : (2 : Nat) ^ 40 ≤ (if 2 * (b.natAbs % 2 ^ (b.natAbs.log2 - 52))
          < 2 ^ (b.natAbs.log2 - 52) then
            b.natAbs / 2 ^ (b.natAbs.log2 - 52)
          else if 2 ^ (b.natAbs.log2 - 52) < 2 * (b.natAbs % 2 ^ (b.natAbs.log2 - 52)) then
            b.natAbs / 2 ^ (b.natAbs.log2 - 52) + 1
          else if b.natAbs / 2 ^ (b.natAbs.log2 - 52) % 2 = 0 then
            b.natAbs / 2 ^ (b.natAbs.log2 - 52)
          else b.natAbs / 2 ^ (b.natAbs.log2 - 52) + 1) * 2 ^ (b.natAbs.log2 - 52) := by
      calc (2 : Nat) ^ 40 ≤ 2 ^ 52 * 1 := by norm_num
        _ ≤ _ := Nat.mul_le_mul hq2 Nat.one_le_two_pow
    exact_mod_cast hfin

lemma scaleLoop_char1 (b : Int) (h1 : 1024 ≤ b) (h2 : b < 1024 ^ 2) :
    scaleLoop (F64.ofInt b) 0 = (⟨f64Round b, 1024⟩, 1) := by
  have hfr : f64Round b = b :=
    f64Round_small b (by linarith) (lt_of_lt_of_le h2 (by norm_num))
  rw [show F64.ofInt b = ⟨f64Round b, 1⟩ from rfl, hfr]
  have s1 : (F64.mk b 1).geInt 1024 = true := by simp [F64.geInt]; omega
  have s2 : (F64.mk b 1).div1024 = ⟨b, 1024⟩ := by simp [F64.div1024]
  have s3 : ¬((F64.mk b 1024).geInt 1024 = true ∧ 1 < 4) := by
    simp [F64.geInt]
    nlinarith [h2]
  rw [scaleLoop, show 4 - 0 = 3 + 1 from rfl, scaleLoopFuel_step _ _ _ s1 (by omega), s2,
    scaleLoopFuel_stop _ _ _ s3]

lemma scaleLoop_char2 (b : Int) (h1 : 1024 ^ 2 ≤ b) (h2 : b < 1024 ^ 3) :
    scaleLoop (F64.ofInt b) 0 = (⟨f64Round b, 1024 ^ 2⟩, 2) := by
  have hfr : f64Round b = b :=
    f64Round_small b (by nlinarith) (lt_of_lt_of_le h2 (by norm_num))
  rw [show F64.ofInt b = ⟨f64Round b, 1⟩ from rfl, hfr]
  have s1 : (F64.mk b 1).geInt 1024 = true := by simp [F64.geInt]; nlinarith
  have s2 : (F64.mk b 1024).geInt 1024 = true := by simp [F64.geInt]; nlinarith
  have s3 : ¬((F64.mk b (1024 * 1024)).geInt 1024 = true ∧ 2 < 4) := by
    simp [F64.geInt]; nlinarith
  rw [scaleLoop, show 4 - 0 = 2 + 1 + 1 from rfl, scaleLoopFuel_step _ _ _ s1 (by omega)]
  rw [show (F64.mk b 1).div1024 = F64.mk b 1024 by simp [F64.div1024]]
  rw [scaleLoopFuel_step _ _ _ s2 (by omega)]
  rw [show (F64.mk b 1024).div1024 = F64.mk b (1024 * 1024) from rfl]
  rw [scaleLoopFuel_stop _ _ _ s3]
  norm_num

lemma scaleLoop_char3 (b : Int) (h1 : 1024 ^ 3 ≤ b) (h2 : b < 1024 ^ 4) :
    scaleLoop (F64.ofInt b) 0 = (⟨f64Round b, 1024 ^ 3⟩, 3) := by
  have hfr : f64Round b = b :=
    f64Round_small b (by nlinarith) (lt_of_lt_of_le h2 (by norm_num))
  rw [show F64.ofInt b = ⟨f64Round b, 1⟩ from rfl, hfr]
  have s1 : (F64.mk b 1).geInt 1024 = true := by simp [F64.geInt]; nlinarith
  have s2 : (F64.mk b 1024).geInt 1024 = true := by simp [F64.geInt]; nlinarith
  have s3 : (F64.mk b (1024 * 1024)).geInt 1024 = true := by simp [F64.geInt]; nlinarith
  have s4 : ¬((F64.mk b (1024 * 1024 * 1024)).geInt 1024 = true ∧ 3 < 4) := by
    simp [F64.geInt]; nlinarith
  rw [scaleLoop, show 4 - 0 = 1 + 1 + 1 + 1 from rfl, scaleLoopFuel_step _ _ _ s1 (by omega)]
  rw [show (F64.mk b 1).div1024 = F64.mk b 1024 by simp [F64.div1024]]
  rw [scaleLoopFuel_step _ _ _ s2 (by omega)]
  rw [show (F64.mk b 1024).div1024 = F64.mk b (1024 * 1024) from rfl]
  rw [scaleLoopFuel_step _ _ _ s3 (by omega)]
  rw [show (F64.mk b (1024 * 1024)).div1024 = F64.mk b (1024 * 1024 * 1024) from rfl]
  rw [scaleLoopFuel_stop _ _ _ s4]
  norm_num

lemma scaleLoop_char4 (b : Int) (h1 : 1024 ^ 4 ≤ b) :
    scaleLoop (F64.ofInt b) 0 = (⟨f64Round b, 1024 ^ 4⟩, 4) := by
  have hge : (2 : Int) ^ 40 ≤ f64Round b := by
    apply f64Round_ge_pow40
    norm_num at h1 ⊢
    exact h1
  have s1 : (F64.mk (f64Round b) 1).geInt 1024 = true := by
    simp [F64.geInt]
    norm_num at hge ⊢
    omega
  have s2 : (F64.mk (f64Round b) 1024).geInt 1024 = true := by
    simp [F64.geInt]
    norm_num at hge ⊢
    omega
  have s3 : (F64.mk (f64Round b) (1024 * 1024)).geInt 1024 = true := by
    simp [F64.geInt]
    norm_num at hge ⊢
    omega
  have s4 : (F64.mk (f64Round b) (1024 * 1024 * 1024)).geInt 1024 = true := by
    simp [F64.geInt]
    norm_num at hge ⊢
    omega
  have s5 : ¬((F64.mk (f64Round b) (1024 * 1024 * 1024 * 1024)).geInt 1024 = true ∧ 4 < 4) := by
    simp
  rw [show F64.ofInt b = ⟨f64Round b, 1⟩ from rfl]
  rw [scaleLoop, show 4 - 0 = 0 + 1 + 1 + 1 + 1 from rfl,
    scaleLoopFuel_step _ _ _ s1 (by omega)]
  rw [show (F64.mk (f64Round b) 1).div1024 = F64.mk (f64Round b) 1024 by simp [F64.div1024]]
  rw [scaleLoopFuel_step _ _ _ s2 (by omega)]
  rw [show (F64.mk (f64Round b) 1024).div1024 = F64.mk (f64Round b) (1024 * 1024) from rfl]
  rw [scaleLoopFuel_step _ _ _ s3 (by omega)]
  rw [show (F64.mk (f64Round b) (1024 * 1024)).div1024
    = F64.mk (f64Round b) (1024 * 1024 * 1024) from rfl]
  rw [scaleLoopFuel_step _ _ _ s4 (by omega)]
  rw [show (F64.mk (f64Round b) (1024 * 1024 * 1024)).div1024
    = F64.mk (f64Round b) (1024 * 1024 * 1024 * 1024) from rfl]
  rw [scaleLoopFuel_stop _ _ _ s5]
  norm_num

lemma format_size_eq_spec (b : Int) : format_size b = format_size_spec b := by
  by_cases hb : b < 1024
  · simp [format_size, format_size_spec, hb]
  · push_neg at hb
    rcases lt_or_le b (1024 ^ 2) with h2 | h2
    · rw [format_size, format_size_spec, if_neg (not_lt.mpr hb), if_neg (not_lt.mpr hb)]
      simp only [scaleLoop_char1 b hb h2, specUnitIndex, if_pos h2]
      norm_num
      split_ifs <;> rfl
    · rcases lt_or_le b (1024 ^ 3) with h3 | h3
      · rw [format_size, format_size_spec, if_neg (not_lt.mpr hb), if_neg (not_lt.mpr hb)]
        simp only [scaleLoop_char2 b h2 h3, specUnitIndex, if_neg (not_lt.mpr h2), if_pos h3]
        split_ifs <;> rfl
      · rcases lt_or_le b (1024 ^ 4) with h4 | h4
        · rw [format_size, format_size_spec, if_neg (not_lt.mpr hb), if_neg (not_lt.mpr hb)]
          simp only [scaleLoop_char3 b h3 h4, specUnitIndex, if_neg (not_lt.mpr h2),
            if_neg (not_lt.mpr h3), if_pos h4]
          split_ifs <;> rfl
        · rw [format_size, format_size_spec, if_neg (not_lt.mpr hb), if_neg (not_lt.mpr hb)]
          simp only [scaleLoop_char4 b h4, specUnitIndex, if_neg (not_lt.mpr h2),
            if_neg (not_lt.mpr h3), if_neg (not_lt.mpr h4)]
          split_ifs <;> rfl

lemma specUnitIndex_le_four (b : Int) : specUnitIndex b ≤ 4 := by
  unfold specUnitIndex; split_ifs <;> omega

lemma specUnit_ge_one (b : Int) (hb : 1024 ≤ b) :
    1 ≤ (b : ℚ) / 1024 ^ specUnitIndex b := by
  have hpos : (0 : ℚ) < 1024 ^ specUnitIndex b := by positivity
  rw [one_le_div hpos]
  unfold specUnitIndex
  split_ifs with h1 h2 h3
  · norm_num; exact_mod_cast hb
  · norm_num; push_neg at h1; exact_mod_cast h1
  · norm_num; push_neg at h2; exact_mod_cast h2
  · norm_num; push_neg at h3; exact_mod_cast h3

lemma specUnit_next_lt_one (b : Int) (_hb : 1024 ≤ b) :
    specUnitIndex b = 4 ∨ (b : ℚ) / 1024 ^ (specUnitIndex b + 1) < 1 := by
  by_cases h4 : b < 1024 ^ 4
  · right
    have hpos : (0 : ℚ) < 1024 ^ (specUnitIndex b + 1) := by positivity
    rw [div_lt_one hpos]
    unfold specUnitIndex
    split_ifs with ha hb1
    · norm_num; exact_mod_cast ha
    · norm_num; exact_mod_cast hb1
    · norm_num; exact_mod_cast h4
  · left
    unfold specUnitIndex
    push_neg at h4
    have n2 : ¬(b < 1024 ^ 2) := by intro h; nlinarith
    have n3 : ¬(b < 1024 ^ 3) := by intro h; nlinarith
    rw [if_neg n2, if_neg n3, if_neg (not_lt.mpr h4)]

/-! ## Lemmas: aggregator strings -/

lemma mem_slashPrefixesL (l p : List Char) : p ∈ slashPrefixesL l ↔ p ++ ['/'] <+: l := by
  induction l generalizing p with
  | nil => simp [slashPrefixesL]
  | cons c cs ih =>
    cases p with
    | nil =>
      by_cases hc : c = '/' <;>
        simp [slashPrefixesL, hc, List.cons_prefix_cons, eq_comm]
    | cons d ds =>
      by_cases hc : c = '/' <;>
        simp [slashPrefixesL, hc, List.cons_prefix_cons, ih, and_comm, eq_comm] <;>
        aesop

lemma nodup_slashPrefixesL (l : List Char) : (slashPrefixesL l).Nodup := by
  induction l with
  | nil => simp [slashPrefixesL]
  | cons c cs ih =>
    have hmap : ((slashPrefixesL cs).map (c :: ·)).Nodup := ih.map List.cons_injective
    by_cases hc : c = '/'
    · subst hc
      simp only [slashPrefixesL, if_pos, List.singleton_append, List.nodup_cons]
      refine ⟨?_, hmap⟩
      intro hmem
      rcases List.mem_map.mp hmem with ⟨q, _, hq⟩
      exact List.cons_ne_nil '/' q hq
    · simpa [slashPrefixesL, hc] using hmap

lemma foldl_addToDir_count (L : List String) (m : String → Int) (sz : Int) (p : String) :
    (L.foldl (fun acc k => addToDir acc k sz) m) p = m p + sz * (L.count p) := by
  induction L generalizing m with
  | nil => simp
  | cons a L ih =>
    rw [List.foldl_cons, ih, List.count_cons]
    unfold addToDir
    by_cases hpa : p = a
    · subst hpa; simp [mul_add]; ring
    · have : ¬(a == p) := by simpa [beq_iff_eq] using fun h => hpa h.symm
      simp [hpa, this]

lemma mem_slashPrefixes (s p : String) :
    p ∈ slashPrefixes s ↔ p.data ++ ['/'] <+: s.data := by
  unfold slashPrefixes
  rw [← mem_slashPrefixesL]
  constructor
  · rintro h
    rcases List.mem_map.mp h with ⟨q, hq, rfl⟩
    simpa using hq
  · intro h
    exact List.mem_map.mpr ⟨p.data, h, rfl⟩

lemma nodup_slashPrefixes (s : String) : (slashPrefixes s).Nodup :=
  (nodup_slashPrefixesL s.data).map (fun a b h => by injection h)

lemma addToDir_ne (m : String → Int) (k : String) (sz : Int) (p : String) (h : p ≠ k) :
    addToDir m k sz p = m p := by
  simp [addToDir, h]

lemma fileDirAdd_at (m : String → Int) (fpath : String) (sz : Int) (p : String)
    (hp : p ≠ "") :
    fileDirAdd m fpath sz p
      = m p + (if p.data ++ ['/'] <+: fpath.data then sz else 0) := by
  unfold fileDirAdd
  rw [addToDir_ne _ _ _ _ hp]
  rw [foldl_addToDir_count]
  by_cases hmem : p ∈ slashPrefixes fpath
  · rw [List.count_eq_one_of_mem (nodup_slashPrefixes fpath) hmem,
      if_pos ((mem_slashPrefixes fpath p).mp hmem)]
    ring
  · rw [List.count_eq_zero_of_not_mem hmem,
      if_neg (fun h => hmem ((mem_slashPrefixes fpath p).mpr h))]
    ring

lemma dirSizes_loop (files : List (String × Int)) (m : String → Int) (p : String)
    (hp : p ≠ "") :
    (files.foldl (fun acc fs => fileDirAdd acc fs.1 fs.2) m) p
      = m p + ((files.filter (fun fs => decide (p.data ++ ['/'] <+: fs.1.data))).map
          (fun fs => fs.2)).sum := by
  induction files generalizing m with
  | nil => simp
  | cons f fs ih =>
    rw [List.foldl_cons, ih, fileDirAdd_at m f.1 f.2 p hp, List.filter_cons]
    by_cases hpf : p.data ++ ['/'] <+: f.1.data
    · simp [hpf]; ring
    · simp [hpf]

lemma dirSizes_at (files : List (String × Int)) (p : String) (hp : p ≠ "") :
    dirSizes files p
      = ((files.filter (fun fs => decide (p.data ++ ['/'] <+: fs.1.data))).map
          (fun fs => fs.2)).sum := by
  unfold dirSizes
  rw [dirSizes_loop files _ p hp]
  simp

/-! ## Lemmas: walker -/

mutual
theorem walkNode_files (pre : String) (n : FsNode) :
    (walkNode pre n).2
      = ((walkNode pre n).1.filter (fun r => !r.is_dir)).map (fun r => (r.path, r.size)) := by
  cases n with
  | symlink nm => rfl
  | file nm sz => rfl
  | dir nm cs =>
    simp only [walkNode, List.filter_cons]
    norm_num
    exact walkForest_files (joinRel pre nm) cs

theorem walkForest_files (pre : String) (f : FsForest) :
    (walkForest pre f).2
      = ((walkForest pre f).1.filter (fun r => !r.is_dir)).map (fun r => (r.path, r.size)) := by
  cases f with
  | nil => rfl
  | cons node rest =>
    simp only [walkForest, List.filter_append, List.map_append]
    rw [← walkNode_files pre node, ← walkForest_files pre rest]
end

lemma wfName_ne (s : String) (h : wfName s = true) : s ≠ "" := by
  simp [wfName] at h
  exact h.1

lemma joinRel_ne (pre nm : String) (h : nm ≠ "") : joinRel pre nm ≠ "" := by
  unfold joinRel
  split_ifs with hpre
  · exact h
  · intro hx
    have hlen := congrArg String.length hx
    simp [String.length_append] at hlen
    have : nm.length = 0 := by omega
    exact h (String.ext (List.length_eq_zero.mp this))

mutual
theorem walkNode_path_ne (pre : String) (n : FsNode) (h : wfNode n = true) :
    ∀ r ∈ (walkNode pre n).1, r.path ≠ "" := by
  cases n with
  | symlink nm => intro r hr; simp [walkNode] at hr
  | file nm sz =>
    intro r hr
    simp only [walkNode, List.mem_singleton] at hr
    subst hr
    exact joinRel_ne pre nm (wfName_ne nm (by simpa [wfNode] using h))
  | dir nm cs =>
    intro r hr
    simp only [walkNode, List.mem_cons] at hr
    have hparts : wfName nm = true ∧ wfChildren cs = true := by
      simp [wfNode] at h
      exact ⟨h.1.1, h.1.2⟩
    rcases hr with rfl | hr
    · exact joinRel_ne pre nm (wfName_ne nm hparts.1)
    · exact walkForest_path_ne (joinRel pre nm) cs hparts.2 r hr

theorem walkForest_path_ne (pre : String) (f : FsForest) (h : wfChildren f = true) :
    ∀ r ∈ (walkForest pre f).1, r.path ≠ "" := by
  cases f with
  | nil => intro r hr; simp [walkForest] at hr
  | cons node rest =>
    intro r hr
    have hparts : wfNode node = true ∧ wfChildren rest = true := by
      simpa [wfChildren, Bool.and_eq_true] using h
    simp only [walkForest, List.mem_append] at hr
    rcases hr with hr | hr
    · exact walkNode_path_ne pre node hparts.1 r hr
    · exact walkForest_path_ne pre rest hparts.2 r hr
end

/-! ## Lemmas: aggregated scan results -/

lemma finalize_is_dir (ds : String → Int) (r : RawEntry) :
    (finalizeItem ds r).is_dir = r.is_dir := rfl

lemma finalize_path (ds : String → Int) (r : RawEntry) :
    (finalizeItem ds r).path = r.path := rfl

lemma finalize_size_file (ds : String → Int) (r : RawEntry) (h : r.is_dir = false) :
    (finalizeItem ds r).size = r.size := by
  simp [finalizeItem, h]

lemma finalize_size_dir (ds : String → Int) (r : RawEntry) (h : r.is_dir = true) :
    (finalizeItem ds r).size = ds r.path := by
  simp [finalizeItem, h]

lemma sorted_items_filter_sum (raws : List RawEntry) (ds : String → Int)
    (pb : Item → Bool) (pr : RawEntry → Bool)
    (hp : ∀ r, pb (finalizeItem ds r) = pr r) :
    ((((raws.map (finalizeItem ds)).mergeSort bySizeDesc).filter pb).map
        (fun it => it.size)).sum
      = ((raws.filter pr).map (fun r => (finalizeItem ds r).size)).sum := by
  have hperm := List.mergeSort_perm (raws.map (finalizeItem ds)) bySizeDesc
  rw [((hperm.filter pb).map (fun it => it.size)).sum_eq]
  rw [List.filter_map, List.map_map]
  rw [show (pb ∘ finalizeItem ds) = fun r => pb (finalizeItem ds r) from rfl]
  rw [List.filter_congr (fun r _ => hp r)]
  rfl

lemma scanTree_total_eq_file_sum (tree : FsForest) (p : String) (el : ℚ) :
    (scanTree tree p el).total_size
      = (((scanTree tree p el).items.filter (fun it => !it.is_dir)).map
          (fun it => it.size)).sum := by
  unfold scanTree
  simp only
  rw [sorted_items_filter_sum _ _ _ (fun r => !r.is_dir) (fun r => rfl)]
  rw [List.map_congr_left (fun r hr =>
    finalize_size_file _ r (by simpa using (List.mem_filter.mp hr).2))]
  conv_lhs => rw [walkForest_files "" tree]
  rw [List.map_map]
  rfl

lemma data_append_slash (s : String) : (s ++ "/").data = s.data ++ ['/'] := by
  rw [String.data_append]

lemma scanTree_dir_size (tree : FsForest) (p : String) (el : ℚ)
    (hwf : wfChildren tree = true) :
    ∀ d ∈ (scanTree tree p el).items, d.is_dir = true →
      d.size = (((scanTree tree p el).items.filter
          (fun f => !f.is_dir && decide ((d.path ++ "/").data <+: f.path.data))).map
          (fun f => f.size)).sum := by
  intro d hd hdir
  unfold scanTree at hd ⊢
  simp only at hd ⊢
  rw [List.mem_mergeSort] at hd
  rcases List.mem_map.mp hd with ⟨r, hr, rfl⟩
  have hrd : r.is_dir = true := by
    simpa [finalize_is_dir] using hdir
  have hpath : r.path ≠ "" := walkForest_path_ne "" tree hwf r hr
  rw [sorted_items_filter_sum _ _ _
      (fun x => !x.is_dir && decide (((finalizeItem (dirSizes (walkForest "" tree).2) r).path
        ++ "/").data <+: x.path.data)) (fun _ => rfl)]
  rw [List.map_congr_left (fun x hx =>
    finalize_size_file _ x (by
      have := (List.mem_filter.mp hx).2
      simp at this
      simpa using this.1))]
  rw [finalize_size_dir _ r hrd, finalize_path]
  rw [dirSizes_at _ r.path hpath]
  conv_lhs => rw [walkForest_files "" tree]
  rw [List.filter_map, List.map_map]
  rw [show ((fun fs : String × Int => decide (r.path.data ++ ['/'] <+: fs.1.data)) ∘
      fun r' : RawEntry => (r'.path, r'.size)) = fun r' : RawEntry =>
      decide (r.path.data ++ ['/'] <+: r'.path.data) from rfl]
  rw [List.filter_filter]
  rw [data_append_slash]
  apply congrArg
  apply congrArg
  apply List.filter_congr
  intro x _
  rw [Bool.and_comm]

lemma mergeSort_sorted_desc (l : List Item) :
    SortedDesc (l.mergeSort bySizeDesc) := by
  have hp := @List.sorted_mergeSort Item bySizeDesc
    (fun a b c hab hbc => by
      simp [bySizeDesc] at hab hbc ⊢
      exact le_trans hbc hab)
    (fun a b => by
      simp [bySizeDesc]
      exact le_total b.size a.size)
    l
  exact List.Pairwise.chain' (hp.imp (fun h => by simpa [bySizeDesc] using h))

lemma scanTree_sorted (tree : FsForest) (p : String) (el : ℚ) :
    SortedDesc (scanTree tree p el).items := by
  unfold scanTree
  exact mergeSort_sorted_desc _

/-! ## Lemmas: memory cache -/

lemma sum_sizes_sublist (l1 l2 : List (String × CacheEntryM))
    (h : List.Sublist l1 l2) :
    (l1.map (fun kv => kv.2.size)).sum ≤ (l2.map (fun kv => kv.2.size)).sum :=
  List.Sublist.sum_le_sum (h.map _) (fun a _ => Nat.zero_le a)

lemma lruPut_entries (c : ScanCacheM) (k : String) (v : CacheEntryM) :
    (c.lruPut k v).entries
      = (k, v) :: (if (c.entries.filter (fun x => ¬(x.1 = k))).length < c.maxEntries
          then c.entries.filter (fun x => ¬(x.1 = k))
          else (c.entries.filter (fun x => ¬(x.1 = k))).take (c.maxEntries - 1)) := rfl

lemma lruPut_length (c : ScanCacheM) (k : String) (v : CacheEntryM)
    (hc : 1 ≤ c.maxEntries) :
    (c.lruPut k v).entries.length ≤ c.maxEntries := by
  rw [lruPut_entries]
  split_ifs with h
  · simpa using h
  · simp only [List.length_cons]
    have := List.length_take_le (c.maxEntries - 1)
      (c.entries.filter (fun x => ¬(x.1 = k)))
    omega

lemma lruPut_sum (c : ScanCacheM) (k : String) (v : CacheEntryM) :
    (c.lruPut k v).sumSizes ≤ c.sumSizes + v.size := by
  unfold ScanCacheM.sumSizes
  rw [lruPut_entries]
  simp only [List.map_cons, List.sum_cons]
  have hsub := sum_sizes_sublist
    ((if (c.entries.filter (fun x => ¬(x.1 = k))).length < c.maxEntries
      then c.entries.filter (fun x => ¬(x.1 = k))
      else (c.entries.filter (fun x => ¬(x.1 = k))).take (c.maxEntries - 1)))
    c.entries
    (by
      split_ifs
      · exact List.filter_sublist c.entries
      · exact (List.take_sublist _ _).trans (List.filter_sublist c.entries))
  omega

lemma lruPut_mem (c : ScanCacheM) (k : String) (v : CacheEntryM) (kv : String × CacheEntryM)
    (h : kv ∈ (c.lruPut k v).entries) : kv = (k, v) ∨ kv ∈ c.entries := by
  rw [lruPut_entries] at h
  rcases List.mem_cons.mp h with h | h
  · exact Or.inl h
  · right
    split_ifs at h
    · exact (List.filter_sublist c.entries).subset h
    · exact ((List.take_sublist _ _).trans (List.filter_sublist c.entries)).subset h

lemma lruPut_fields (c : ScanCacheM) (k : String) (v : CacheEntryM) :
    (c.lruPut k v).maxEntries = c.maxEntries ∧ (c.lruPut k v).maxSizeBytes = c.maxSizeBytes := by
  unfold ScanCacheM.lruPut
  exact ⟨rfl, rfl⟩

lemma evictLoop_spec (c : ScanCacheM) (e : Nat) :
    ((c.evictLoop e).sumSizes + e ≤ c.maxSizeBytes ∨ (c.evictLoop e).entries = []) ∧
      List.Sublist (c.evictLoop e).entries c.entries ∧
      (c.evictLoop e).maxEntries = c.maxEntries ∧
      (c.evictLoop e).maxSizeBytes = c.maxSizeBytes := by
  generalize hn : c.entries.length = n
  induction n using Nat.strong_induction_on generalizing c with
  | _ n ih =>
    rw [ScanCacheM.evictLoop]
    split_ifs with h
    · have hlen : c.popLru.entries.length < n := by
        unfold ScanCacheM.popLru
        simp only [List.length_dropLast]
        have : c.entries.length ≠ 0 := fun hl => h.2 (List.length_eq_zero.mp hl)
        omega
      have hrec := ih c.popLru.entries.length hlen c.popLru rfl
      refine ⟨?_, hrec.2.1.trans (List.dropLast_sublist c.entries), hrec.2.2⟩
      rcases hrec.1 with h1 | h1
      · left
        have : c.popLru.maxSizeBytes = c.maxSizeBytes := rfl
        omega
      · exact Or.inr h1
    · push_neg at h
      by_cases hgt : c.maxSizeBytes < c.sumSizes + e
      · exact ⟨Or.inr (h hgt), List.Sublist.refl _, rfl, rfl⟩
      · exact ⟨Or.inl (by omega), List.Sublist.refl _, rfl, rfl⟩

lemma insert_head (c : ScanCacheM) (now : Int) (k : String) (r : ScanResultM) :
    (c.insert now k r).entries.head? = some (k, ⟨r, now, estimateSize r⟩) := by
  simp only [ScanCacheM.insert]
  split_ifs <;> rw [lruPut_entries] <;> rfl

lemma insert_fields (c : ScanCacheM) (now : Int) (k : String) (r : ScanResultM) :
    (c.insert now k r).maxEntries = c.maxEntries ∧
      (c.insert now k r).maxSizeBytes = c.maxSizeBytes := by
  simp only [ScanCacheM.insert]
  split_ifs with h
  · have h1 := lruPut_fields (c.evictLoop (estimateSize r)) k
      ⟨r, now, estimateSize r⟩
    have h2 := (evictLoop_spec c (estimateSize r)).2.2
    exact ⟨h1.1.trans h2.1, h1.2.trans h2.2⟩
  · exact lruPut_fields c k _

lemma insert_length (c : ScanCacheM) (now : Int) (k : String) (r : ScanResultM)
    (hc : 1 ≤ c.maxEntries) :
    (c.insert now k r).entries.length ≤ c.maxEntries := by
  simp only [ScanCacheM.insert]
  split_ifs with h
  · have h2 := (evictLoop_spec c (estimateSize r)).2.2.1
    have := lruPut_length (c.evictLoop (estimateSize r)) k ⟨r, now, estimateSize r⟩
      (by omega)
    omega
  · exact lruPut_length c k _ hc

lemma insert_sum (c : ScanCacheM) (now : Int) (k : String) (r : ScanResultM)
    (he : estimateSize r ≤ c.maxSizeBytes) :
    (c.insert now k r).sumSizes ≤ c.maxSizeBytes := by
  simp only [ScanCacheM.insert]
  have hg : ({ result := r, dir_mtime := now, size := estimateSize r } : CacheEntryM).size
      = estimateSize r := rfl
  split_ifs with h
  · have hspec := evictLoop_spec c (estimateSize r)
    have hput := lruPut_sum (c.evictLoop (estimateSize r)) k ⟨r, now, estimateSize r⟩
    rcases hspec.1 with h1 | h1
    · have := hspec.2.2.2
      omega
    · have hz : (c.evictLoop (estimateSize r)).sumSizes = 0 := by
        unfold ScanCacheM.sumSizes
        rw [h1]
        rfl
      have := hspec.2.2.2
      omega
  · have hput := lruPut_sum c k ⟨r, now, estimateSize r⟩
    push_neg at h
    omega

lemma insert_mem (c : ScanCacheM) (now : Int) (k : String) (r : ScanResultM)
    (kv : String × CacheEntryM) (h : kv ∈ (c.insert now k r).entries) :
    kv = (k, ⟨r, now, estimateSize r⟩) ∨ kv ∈ c.entries := by
  simp only [ScanCacheM.insert] at h
  split_ifs at h with hcond
  · rcases lruPut_mem _ _ _ _ h with h | h
    · exact Or.inl h
    · exact Or.inr ((evictLoop_spec c (estimateSize r)).2.1.subset h)
  · exact lruPut_mem _ _ _ _ h

lemma invalidate_mem (c : ScanCacheM) (p : String) (kv : String × CacheEntryM)
    (h : kv ∈ (c.invalidate p).entries) : kv ∈ c.entries :=
  (List.filter_sublist c.entries).subset h

lemma getE_some_mem (c : ScanCacheM) (k : String) (e : CacheEntryM) (mem1 : ScanCacheM)
    (h : c.getE k = (some e, mem1)) :
    (∃ kv ∈ c.entries, kv.2 = e) ∧
      (∀ kv ∈ mem1.entries, kv.2 = e ∨ kv ∈ c.entries) := by
  unfold ScanCacheM.getE at h
  cases hf : c.entries.find? (fun kv => kv.1 = k) with
  | none => rw [hf] at h; cases h
  | some kv0 =>
    rw [hf] at h
    injection h with h1 h2
    injection h1 with h1
    constructor
    · exact ⟨kv0, List.mem_of_find?_eq_some hf, by rw [← h1]⟩
    · intro kv hkv
      rw [← h2] at hkv
      simp only at hkv
      rcases List.mem_cons.mp hkv with rfl | hkv
      · exact Or.inl (by rw [← h1])
      · exact Or.inr ((List.filter_sublist c.entries).subset hkv)

lemma getE_none_state (c : ScanCacheM) (k : String) (mem1 : ScanCacheM)
    (h : c.getE k = (none, mem1)) : mem1 = c := by
  unfold ScanCacheM.getE at h
  cases hf : c.entries.find? (fun kv => kv.1 = k) with
  | none => rw [hf] at h; injection h with _ h2; exact h2.symm
  | some kv0 => rw [hf] at h; cases h

/-! ## Lemmas: disk cache -/

lemma mergeSort_byCreated_pairwise (rows : List DiskRowM) :
    List.Pairwise (fun a b : DiskRowM => a.created_at ≤ b.created_at)
      (rows.mergeSort byCreatedAsc) := by
  have hp := @List.sorted_mergeSort DiskRowM byCreatedAsc
    (fun a b c hab hbc => by
      simp [byCreatedAsc] at hab hbc ⊢
      exact le_trans hab hbc)
    (fun a b => by
      simp [byCreatedAsc]
      exact le_total a.created_at b.created_at)
    rows
  exact hp.imp (fun h => by simpa [byCreatedAsc] using h)

lemma maybeCleanup_skip (d : DiskCacheM) (new : Nat)
    (h : ¬(d.currentSizeMb * 1024 * 1024 + new > d.maxSizeMb * 1024 * 1024)) :
    d.maybeCleanup new = d := by
  simp only [DiskCacheM.maybeCleanup]
  rw [if_neg h]

lemma maybeCleanup_hit (d : DiskCacheM) (new : Nat)
    (h : d.currentSizeMb * 1024 * 1024 + new > d.maxSizeMb * 1024 * 1024) :
    (d.maybeCleanup new).rows
      = (d.rows.mergeSort byCreatedAsc).drop
          (Nat.max ((d.currentSizeMb * 1024 * 1024 + new - d.maxSizeMb * 1024 * 1024
            + (d.maxSizeMb * 1024 * 1024) / 4) / 1024 / 1024) 1) ∧
      (d.maybeCleanup new).currentSizeMb = d.currentSizeMb ∧
      (d.maybeCleanup new).maxSizeMb = d.maxSizeMb := by
  simp only [DiskCacheM.maybeCleanup]
  rw [if_pos h]
  exact ⟨rfl, rfl, rfl⟩

lemma maybeCleanup_mem (d : DiskCacheM) (new : Nat) (row : DiskRowM)
    (h : row ∈ (d.maybeCleanup new).rows) : row ∈ d.rows := by
  simp only [DiskCacheM.maybeCleanup] at h
  split_ifs at h with hc
  · exact (List.mergeSort_perm d.rows byCreatedAsc).subset
      ((List.drop_sublist _ _).subset h)
  · exact h

lemma diskInsert_rows (d : DiskCacheM) (k : String) (r : ScanResultM)
    (mtime : Int) (size : Nat) (now : Int) :
    (d.insert k r mtime size now).rows
      = ⟨k, r, mtime, now, size⟩ ::
          (d.maybeCleanup size).rows.filter (fun row => ¬(row.path = k)) := rfl

lemma diskInsert_mem (d : DiskCacheM) (k : String) (r : ScanResultM)
    (mtime : Int) (size : Nat) (now : Int) (row : DiskRowM)
    (h : row ∈ (d.insert k r mtime size now).rows) :
    row = ⟨k, r, mtime, now, size⟩ ∨ row ∈ d.rows := by
  rw [diskInsert_rows] at h
  rcases List.mem_cons.mp h with h | h
  · exact Or.inl h
  · exact Or.inr (maybeCleanup_mem d size row ((List.filter_sublist _).subset h))

lemma diskInvalidate_mem (d : DiskCacheM) (p : String) (row : DiskRowM)
    (h : row ∈ (d.invalidate p).rows) : row ∈ d.rows :=
  (List.filter_sublist d.rows).subset h

lemma diskGet_some (d : DiskCacheM) (k : String) (probed now : Int)
    (r : ScanResultM) (d1 : DiskCacheM)
    (h : d.get k probed now = (some r, d1)) :
    (∃ row ∈ d.rows, row.dataResult = r) ∧
      (∀ row ∈ d1.rows, ∃ row0 ∈ d.rows, row.dataResult = row0.dataResult) := by
  unfold DiskCacheM.get at h
  cases hf : d.rows.find? (fun row => row.path = k) with
  | none => rw [hf] at h; cases h
  | some row0 =>
    rw [hf] at h
    dsimp only at h
    split_ifs at h with hm
    · injection h with h1 h2
      injection h1 with h1
      constructor
      · exact ⟨row0, List.mem_of_find?_eq_some hf, h1⟩
      · intro row hrow
        rw [← h2] at hrow
        simp only at hrow
        rcases List.mem_map.mp hrow with ⟨row1, hrow1, rfl⟩
        refine ⟨row1, hrow1, ?_⟩
        split_ifs <;> rfl
    · cases h

lemma diskGet_none_state (d : DiskCacheM) (k : String) (probed now : Int)
    (d1 : DiskCacheM) (h : d.get k probed now = (none, d1)) : d1 = d := by
  unfold DiskCacheM.get at h
  cases hf : d.rows.find? (fun row => row.path = k) with
  | none => rw [hf] at h; injection h with _ h2; exact h2.symm
  | some row0 =>
    rw [hf] at h
    dsimp only at h
    split_ifs at h with hm
    · cases h
    · injection h with _ h2; exact h2.symm

/-! ## Lemmas: orchestrator -/

lemma setScanTimeZero_items (r : ScanResultM) :
    (setScanTimeZero r).items = r.items := rfl

lemma freshScan_result (st : EngineState) (q : ScanRequest) :
    (freshScan st q).1 = ⟨scanTree q.tree q.path q.elapsed, none⟩ := rfl

lemma freshScan_sorted (st : EngineState) (q : ScanRequest) (h : EngineSorted st) :
    SortedDesc (freshScan st q).1.result.items ∧ EngineSorted (freshScan st q).2 := by
  refine ⟨scanTree_sorted q.tree q.path q.elapsed, ?_, ?_⟩
  · intro kv hkv
    rcases insert_mem _ _ _ _ kv hkv with rfl | hkv
    · exact scanTree_sorted q.tree q.path q.elapsed
    · exact h.1 kv (invalidate_mem st.mem q.key kv hkv)
  · intro row hrow
    rcases diskInsert_mem _ _ _ _ _ _ row hrow with rfl | hrow
    · exact scanTree_sorted q.tree q.path q.elapsed
    · exact h.2 row (diskInvalidate_mem st.disk q.key row hrow)

lemma diskProbeOrFresh_sorted (st : EngineState) (q : ScanRequest) (h : EngineSorted st) :
    SortedDesc (diskProbeOrFresh st q).1.result.items ∧
      EngineSorted (diskProbeOrFresh st q).2 := by
  unfold diskProbeOrFresh
  cases hd : st.disk.get q.key q.probedMtime q.now with
  | mk o disk1 =>
    cases o with
    | some r =>
      have hget := diskGet_some st.disk q.key q.probedMtime q.now r disk1 hd
      rcases hget.1 with ⟨row0, hrow0, hr⟩
      have hrs : SortedDesc r.items := hr ▸ h.2 row0 hrow0
      refine ⟨by simpa [setScanTimeZero_items] using hrs, ?_, ?_⟩
      · intro kv hkv
        rcases insert_mem _ _ _ _ kv hkv with rfl | hkv
        · exact hrs
        · exact h.1 kv hkv
      · intro row hrow
        rcases hget.2 row hrow with ⟨row1, hrow1, he⟩
        exact he ▸ h.2 row1 hrow1
    | none =>
      have heq := diskGet_none_state st.disk q.key q.probedMtime q.now disk1 hd
      subst heq
      exact freshScan_sorted ⟨st.mem, st.disk⟩ q h

lemma scanStep_sorted_aux (st : EngineState) (q : ScanRequest) (h : EngineSorted st) :
    SortedDesc (scanStep st q).1.result.items ∧ EngineSorted (scanStep st q).2 := by
  unfold scanStep
  split_ifs with hforce
  · exact freshScan_sorted st q h
  · cases hg : st.mem.getE q.key with
    | mk o mem1 =>
      cases o with
      | some e =>
        have hget := getE_some_mem st.mem q.key e mem1 hg
        rcases hget.1 with ⟨kv0, hkv0, hkve⟩
        have hes : SortedDesc e.result.items := hkve ▸ h.1 kv0 hkv0
        have hmem1 : ∀ kv ∈ mem1.entries, SortedDesc kv.2.result.items := by
          intro kv hkv
          rcases hget.2 kv hkv with he | hkv2
          · exact he ▸ hes
          · exact h.1 kv hkv2
        dsimp only
        split_ifs with hmt
        · exact ⟨by simpa [setScanTimeZero_items] using hes, hmem1, h.2⟩
        · exact diskProbeOrFresh_sorted ⟨mem1, st.disk⟩ q ⟨hmem1, h.2⟩
      | none =>
        have heq := getE_none_state st.mem q.key mem1 hg
        subst heq
        exact diskProbeOrFresh_sorted ⟨st.mem, st.disk⟩ q h

lemma diskProbeOrFresh_source (st : EngineState) (q : ScanRequest) :
    (diskProbeOrFresh st q).1.cacheSource = some "disk" ∨
      (diskProbeOrFresh st q).1.cacheSource = none := by
  unfold diskProbeOrFresh
  cases hd : st.disk.get q.key q.probedMtime q.now with
  | mk o disk1 =>
    cases o with
    | some r => exact Or.inl rfl
    | none => exact Or.inr rfl

lemma scanStep_memory_source (st : EngineState) (q : ScanRequest)
    (hf : q.force = false) (e : CacheEntryM) (mem1 : ScanCacheM)
    (hm : st.mem.getE q.key = (some e, mem1)) :
    (scanStep st q).1.cacheSource = some "memory" ↔ q.probedMtime ≤ e.dir_mtime := by
  unfold scanStep
  rw [if_neg (by simp [hf]), hm]
  dsimp only
  split_ifs with hmt
  · simpa using hmt
  · rcases diskProbeOrFresh_source ⟨mem1, st.disk⟩ q with hsrc | hsrc <;>
      rw [hsrc] <;> simp <;> omega

lemma scanStep_initial_fresh (q : ScanRequest) (hq : q.force = false) :
    scanStep initialEngine q = freshScan initialEngine q := by
  unfold scanStep
  rw [if_neg (by simp [hq])]
  rw [show initialEngine.mem.getE q.key = (none, initialEngine.mem) from rfl]
  dsimp only
  unfold diskProbeOrFresh
  rw [show initialEngine.disk.get q.key q.probedMtime q.now
    = (none, initialEngine.disk) from rfl]

lemma freshScan_mem_head (st : EngineState) (q : ScanRequest) :
    (freshScan st q).2.mem.entries.head?
      = some (q.key, ⟨scanTree q.tree q.path q.elapsed, q.now,
          estimateSize (scanTree q.tree q.path q.elapsed)⟩) :=
  insert_head _ _ _ _

lemma insert_fold_inv (inserts : List (Int × String × ScanResultM)) :
    ∀ c : ScanCacheM, c.maxEntries = 30 → c.maxSizeBytes = 200 * 1024 * 1024 →
      c.entries.length ≤ 30 → c.sumSizes ≤ 200 * 1024 * 1024 →
      (∀ x ∈ inserts, estimateSize x.2.2 ≤ 200 * 1024 * 1024) →
      ((inserts.foldl (fun c x => c.insert x.1 x.2.1 x.2.2) c).entries.length ≤ 30 ∧
        (inserts.foldl (fun c x => c.insert x.1 x.2.1 x.2.2) c).sumSizes
          ≤ 200 * 1024 * 1024) := by
  induction inserts with
  | nil => intro c _ _ hlen hsum _; exact ⟨hlen, hsum⟩
  | cons x xs ih =>
    intro c hme hms hlen hsum hall
    rw [List.foldl_cons]
    have hf := insert_fields c x.1 x.2.1 x.2.2
    exact ih (c.insert x.1 x.2.1 x.2.2) (hf.1.trans hme) (hf.2.trans hms)
      (by
        have := insert_length c x.1 x.2.1 x.2.2 (by omega)
        omega)
      (by
        have := insert_sum c x.1 x.2.1 x.2.2
          (by rw [hms]; exact hall x (List.mem_cons_self x xs))
        omega)
      (fun y hy => hall y (List.mem_cons_of_mem x hy))

lemma strTrim_empty_iff (s : String) :
    strTrim s = "" ↔ s.data.all Char.isWhitespace = true := by
  unfold strTrim
  have hinj : ∀ l : List Char, String.mk l = "" ↔ l = [] := by
    intro l
    constructor
    · intro h
      have := congrArg String.data h
      simpa using this
    · intro h; rw [h]
  rw [hinj, List.reverse_eq_nil_iff, List.dropWhile_eq_nil_iff, List.all_eq_true]
  constructor
  · intro h x hx
    have hsplit := @List.takeWhile_append_dropWhile Char Char.isWhitespace s.data
    rw [← hsplit] at hx
    rcases List.mem_append.mp hx with hx | hx
    · exact List.mem_takeWhile_imp hx
    · exact h x (List.mem_reverse.mpr hx)
  · intro h x hx
    exact h x ((List.dropWhile_sublist _).subset (List.mem_reverse.mp hx))

lemma insert_fold_count (inserts : List (Int × String × ScanResultM)) :
    ∀ c : ScanCacheM, c.maxEntries = 30 → c.entries.length ≤ 30 →
      (inserts.foldl (fun c x => c.insert x.1 x.2.1 x.2.2) c).entries.length ≤ 30 := by
  induction inserts with
  | nil => intro c _ hlen; exact hlen
  | cons x xs ih =>
    intro c hme hlen
    rw [List.foldl_cons]
    have hf := insert_fields c x.1 x.2.1 x.2.2
    exact ih (c.insert x.1 x.2.1 x.2.2) (hf.1.trans hme)
      (by
        have := insert_length c x.1 x.2.1 x.2.2 (by omega)
        omega)

lemma estimate_single (p nm fmt : String) (sz : Int) (isd : Bool) (ts : Int)
    (tsf : String) (stime : ℚ) (pth : String) :
    estimateSize ⟨[⟨p, nm, sz, fmt, isd⟩], ts, tsf, stime, pth⟩
      = sizeOfItemStruct + p.length + nm.length + fmt.length + sizeOfArcVec := by
  simp [estimateSize]

lemma insert_empty_sum (now : Int) (k : String) (r : ScanResultM) :
    (initialScanCache.insert now k r).sumSizes = estimateSize r := by
  have hput : ∀ v : CacheEntryM, (initialScanCache.lruPut k v).sumSizes = v.size := by
    intro v
    unfold ScanCacheM.sumSizes
    rw [lruPut_entries]
    simp [initialScanCache, ScanCacheM.new]
  simp only [ScanCacheM.insert]
  split_ifs with h
  · have hev : initialScanCache.evictLoop (estimateSize r) = initialScanCache := by
      rw [ScanCacheM.evictLoop]
      exact dif_neg (fun hc => hc.2 rfl)
    rw [hev, hput]
  · rw [hput]

/-! ## Claim theorems -/

/-- C1: In every successful fresh scan result, every item with is_dir = true
has size equal to the sum of the sizes of all files whose path has the
directory's path as a proper prefix at a '/' boundary (begins with the
directory's path followed by "/"); a directory under which no files were
recorded has size 0 (its filtered sum is the empty sum). -/
theorem claim_C1 (tree : FsForest) (p : String) (el : ℚ)
    (hwf : wfForest tree = true) :
    ∀ d ∈ (scanTree tree p el).items, d.is_dir = true →
      d.size = (((scanTree tree p el).items.filter
          (fun f => !f.is_dir && decide ((d.path ++ "/").data <+: f.path.data))).map
          (fun f => f.size)).sum :=
  scanTree_dir_size tree p el (by
    have := (Bool.and_eq_true _ _).mp hwf
    exact this.1)

/-- C1 witness: a concrete tree (file x of 2048 bytes, directory sub holding
file y of 1024 bytes) satisfying the well-formedness hypothesis. -/
theorem claim_C1_witness :
    wfForest (FsForest.cons (FsNode.file "x" 2048)
      (FsForest.cons (FsNode.dir "sub" (FsForest.cons (FsNode.file "y" 1024) FsForest.nil))
        FsForest.nil)) = true ∧
    (∀ d ∈ (scanTree (FsForest.cons (FsNode.file "x" 2048)
        (FsForest.cons (FsNode.dir "sub" (FsForest.cons (FsNode.file "y" 1024) FsForest.nil))
          FsForest.nil)) "root" 0).items, d.is_dir = true →
      d.size = (((scanTree (FsForest.cons (FsNode.file "x" 2048)
          (FsForest.cons (FsNode.dir "sub" (FsForest.cons (FsNode.file "y" 1024) FsForest.nil))
            FsForest.nil)) "root" 0).items.filter
          (fun f => !f.is_dir && decide ((d.path ++ "/").data <+: f.path.data))).map
          (fun f => f.size)).sum) :=
  ⟨by decide, claim_C1 _ "root" 0 (by decide)⟩

/-- C2: For every successful fresh scan, total_size equals the sum of the
sizes of the file (non-directory) items only; directory items contribute
nothing. -/
theorem claim_C2 (tree : FsForest) (p : String) (el : ℚ)
    (_hwf : wfForest tree = true) :
    (scanTree tree p el).total_size
      = (((scanTree tree p el).items.filter (fun it => !it.is_dir)).map
          (fun it => it.size)).sum :=
  scanTree_total_eq_file_sum tree p el

/-- C2 witness: the same concrete two-file tree. -/
theorem claim_C2_witness :
    wfForest (FsForest.cons (FsNode.file "x" 2048)
      (FsForest.cons (FsNode.dir "sub" (FsForest.cons (FsNode.file "y" 1024) FsForest.nil))
        FsForest.nil)) = true ∧
    (scanTree (FsForest.cons (FsNode.file "x" 2048)
        (FsForest.cons (FsNode.dir "sub" (FsForest.cons (FsNode.file "y" 1024) FsForest.nil))
          FsForest.nil)) "root" 0).total_size
      = (((scanTree (FsForest.cons (FsNode.file "x" 2048)
          (FsForest.cons (FsNode.dir "sub" (FsForest.cons (FsNode.file "y" 1024) FsForest.nil))
            FsForest.nil)) "root" 0).items.filter (fun it => !it.is_dir)).map
          (fun it => it.size)).sum :=
  ⟨by decide, claim_C2 _ "root" 0 (by decide)⟩

/-- C6: format_size agrees everywhere with the spec-side formatter (largest
binary unit with scaled value ≥ 1 capped at TB, 2/1/0 decimals by the
v < 10 / v < 100 buckets, inputs below 1024 rendered as "<bytes> B"), the
selected unit index really is the largest with scaled value ≥ 1 (capped),
and the seven pinned renderings hold. -/
theorem claim_C6 :
    (∀ b : Int, format_size b = format_size_spec b) ∧
    (∀ b : Int, b < 1024 → format_size b = toString b ++ " B") ∧
    (∀ b : Int, 1024 ≤ b →
      specUnitIndex b ≤ 4 ∧ 1 ≤ (b : ℚ) / 1024 ^ specUnitIndex b ∧
        (specUnitIndex b = 4 ∨ (b : ℚ) / 1024 ^ (specUnitIndex b + 1) < 1)) ∧
    format_size 0 = "0 B" ∧ format_size 1023 = "1023 B" ∧
    format_size 1024 = "1.00 KB" ∧ format_size 1536 = "1.50 KB" ∧
    format_size (10 * 1024) = "10.0 KB" ∧ format_size (100 * 1024) = "100 KB" ∧
    format_size (1024 * 1024 * 1024) = "1.00 GB" := by
  refine ⟨format_size_eq_spec, ?_, ?_, ?_, ?_, ?_, ?_, ?_, ?_, ?_⟩
  · intro b hb
    simp [format_size, hb]
  · intro b hb
    exact ⟨specUnitIndex_le_four b, specUnit_ge_one b hb, specUnit_next_lt_one b hb⟩
  all_goals decide

/-- C6 witness: the two conditional conjuncts instantiated at 5 and 2048. -/
theorem claim_C6_witness :
    ((5 : Int) < 1024 ∧ format_size 5 = toString (5 : Int) ++ " B") ∧
    ((1024 : Int) ≤ 2048 ∧
      (specUnitIndex 2048 ≤ 4 ∧ 1 ≤ ((2048 : Int) : ℚ) / 1024 ^ specUnitIndex 2048 ∧
        (specUnitIndex 2048 = 4 ∨
          ((2048 : Int) : ℚ) / 1024 ^ (specUnitIndex 2048 + 1) < 1))) :=
  ⟨⟨by decide, claim_C6.2.1 5 (by decide)⟩,
    ⟨by decide, claim_C6.2.2.1 2048 (by decide)⟩⟩

/-- C7: BinaryPayload::from_data never compresses — the zstd branch is
feature-gated off (and, if enabled, would not compile, since it reads
compress_threshold while the parameter is named _compress_threshold) — so
every payload comes back raw with compressed = false, even one whose
serialization exceeds the 1 MiB threshold. -/
theorem claim_C7 :
    (∀ (α : Type) (serialize : α → List Nat) (value : α) (threshold : Nat),
      BinaryPayload.from_data serialize value threshold
        = ⟨serialize value, false, (serialize value).length⟩) ∧
    (BinaryPayload.from_data (fun l : List Nat => l)
        (List.replicate (2 * 1024 * 1024) 0) (1024 * 1024)).compressed = false ∧
    (BinaryPayload.from_data (fun l : List Nat => l)
        (List.replicate (2 * 1024 * 1024) 0) (1024 * 1024)).original_size
      > 1024 * 1024 := by
  refine ⟨fun α serialize value threshold => rfl, rfl, ?_⟩
  show (List.replicate (2 * 1024 * 1024) (0 : Nat)).length > 1024 * 1024
  rw [List.length_replicate]
  norm_num

/-- C9: EngineSorted is an invariant of the orchestrator and every returned
result — fresh, memory hit or disk hit — has its items sorted by size in
non-increasing order. -/
theorem claim_C9 (st : EngineState) (q : ScanRequest) (h : EngineSorted st) :
    SortedDesc (scanStep st q).1.result.items ∧ EngineSorted (scanStep st q).2 :=
  scanStep_sorted_aux st q h

/-- C9 witness: the empty engine is sorted, and a scan of a concrete
request against it returns a sorted result and a sorted engine. -/
theorem claim_C9_witness :
    EngineSorted initialEngine ∧
    (SortedDesc (scanStep initialEngine
        ⟨"r", "k", 3, FsForest.nil, 5, 0, 0, false⟩).1.result.items ∧
      EngineSorted (scanStep initialEngine
        ⟨"r", "k", 3, FsForest.nil, 5, 0, 0, false⟩).2) := by
  have hinv : EngineSorted initialEngine := by
    constructor
    · intro kv hkv
      simp [initialEngine, initialScanCache, ScanCacheM.new] at hkv
    · intro row hrow
      simp [initialEngine] at hrow
  exact ⟨hinv, claim_C9 initialEngine ⟨"r", "k", 3, FsForest.nil, 5, 0, 0, false⟩ hinv⟩

/-- C3 counterexample: a fresh scan with the clock at 5 and the probed root
mtime at 3 stores a memory-cache entry whose dir_mtime is 5, the insertion
wall clock — not 3, the probed mtime the claim requires. -/
theorem claim_C3_counterexample :
    (scanStep initialEngine
        ⟨"r", "k", 3, FsForest.nil, 5, 0, 0, false⟩).2.mem.entries.head?.map
        (fun kv => kv.2.dir_mtime) = some 5 ∧ (5 : Int) ≠ 3 := by
  constructor
  · rw [scanStep_initial_fresh _ rfl, freshScan_mem_head]
    rfl
  · decide

/-- C3 amended: the entry ScanCache::insert stores carries the wall-clock
time of the insertion (chrono::Local::now()) in its dir_mtime field, not
the probed root mtime; and with force_refresh off, a scan whose key is in
the memory cache is served from memory exactly when the stored dir_mtime
is ≥ the newly probed root mtime. -/
theorem claim_C3 :
    (∀ (c : ScanCacheM) (now : Int) (k : String) (r : ScanResultM),
      (c.insert now k r).entries.head?.map (fun kv => kv.2.dir_mtime) = some now) ∧
    (∀ (st : EngineState) (q : ScanRequest) (e : CacheEntryM) (mem1 : ScanCacheM),
      q.force = false → st.mem.getE q.key = (some e, mem1) →
      ((scanStep st q).1.cacheSource = some "memory" ↔ e.dir_mtime ≥ q.probedMtime)) := by
  constructor
  · intro c now k r
    rw [insert_head]
    rfl
  · intro st q e mem1 hf hm
    exact scanStep_memory_source st q hf e mem1 hm

/-- C3 witness: an insert at clock 7 stores dir_mtime 7; a one-entry cache
whose stored dir_mtime 9 exceeds the probed mtime 3 answers from memory. -/
theorem claim_C3_witness :
    ((initialScanCache.insert 7 "k" ⟨[], 0, "", 0, ""⟩).entries.head?.map
        (fun kv => kv.2.dir_mtime) = some 7) ∧
    ((scanStep ⟨⟨[("k", ⟨⟨[], 0, "", 0, ""⟩, 9, 0⟩)], 30, 209715200⟩, ⟨[], 0, 500⟩⟩
        ⟨"r", "k", 3, FsForest.nil, 5, 0, 0, false⟩).1.cacheSource = some "memory"
      ↔ (9 : Int) ≥ 3) :=
  ⟨claim_C3.1 initialScanCache 7 "k" ⟨[], 0, "", 0, ""⟩,
    claim_C3.2 ⟨⟨[("k", ⟨⟨[], 0, "", 0, ""⟩, 9, 0⟩)], 30, 209715200⟩, ⟨[], 0, 500⟩⟩
      ⟨"r", "k", 3, FsForest.nil, 5, 0, 0, false⟩ ⟨⟨[], 0, "", 0, ""⟩, 9, 0⟩
      ⟨[("k", ⟨⟨[], 0, "", 0, ""⟩, 9, 0⟩)], 30, 209715200⟩ rfl rfl⟩

/-- C4 counterexample: inserting a single result whose estimated size
(≥ its 300000000-character path) exceeds the 200 MiB budget empties the
cache and inserts anyway, leaving the stored total above max_size_bytes. -/
theorem claim_C4_counterexample :
    initialScanCache.maxSizeBytes = 200 * 1024 * 1024 ∧
    (initialScanCache.insert 0 "k"
        ⟨[⟨String.mk (List.replicate 300000000 'a'), "a", 0, "", false⟩],
          0, "", 0, ""⟩).sumSizes > initialScanCache.maxSizeBytes := by
  refine ⟨rfl, ?_⟩
  rw [insert_empty_sum]
  have hlen : (String.mk (List.replicate 300000000 'a')).length = 300000000 := by
    rw [show (String.mk (List.replicate 300000000 'a')).length
      = (List.replicate 300000000 'a').length from rfl, List.length_replicate]
  rw [estimate_single, hlen]
  rw [show initialScanCache.maxSizeBytes = 209715200 from rfl,
    show sizeOfItemStruct = 88 from rfl, show sizeOfArcVec = 8 from rfl]
  omega

/-- C4 amended: for every sequence of inserts into the fresh 30-entry /
200 MiB cache in which each inserted entry's estimated size is at most
max_size_bytes, both bounds hold after every insert; the entry-count bound
holds for every sequence unconditionally. The size bound genuinely fails
only when a single entry estimated above max_size_bytes is inserted. -/
theorem claim_C4 :
    (∀ inserts : List (Int × String × ScanResultM),
      (∀ x ∈ inserts, estimateSize x.2.2 ≤ initialScanCache.maxSizeBytes) →
      ((inserts.foldl (fun c x => c.insert x.1 x.2.1 x.2.2)
          initialScanCache).entries.length ≤ 30 ∧
        (inserts.foldl (fun c x => c.insert x.1 x.2.1 x.2.2)
          initialScanCache).sumSizes ≤ initialScanCache.maxSizeBytes)) ∧
    (∀ inserts : List (Int × String × ScanResultM),
      (inserts.foldl (fun c x => c.insert x.1 x.2.1 x.2.2)
        initialScanCache).entries.length ≤ 30) := by
  constructor
  · intro inserts h
    exact insert_fold_inv inserts initialScanCache rfl rfl (by decide)
      (by decide) h
  · intro inserts
    exact insert_fold_count inserts initialScanCache rfl (by decide)

/-- C4 witness: one small insert keeps both bounds. -/
theorem claim_C4_witness :
    (∀ x ∈ [((0 : Int), "k", (⟨[], 0, "", 0, ""⟩ : ScanResultM))],
      estimateSize x.2.2 ≤ initialScanCache.maxSizeBytes) ∧
    (([((0 : Int), "k", (⟨[], 0, "", 0, ""⟩ : ScanResultM))].foldl
        (fun c x => c.insert x.1 x.2.1 x.2.2) initialScanCache).entries.length ≤ 30 ∧
      ([((0 : Int), "k", (⟨[], 0, "", 0, ""⟩ : ScanResultM))].foldl
        (fun c x => c.insert x.1 x.2.1 x.2.2) initialScanCache).sumSizes
        ≤ initialScanCache.maxSizeBytes) :=
  ⟨by decide, claim_C4.1 _ (by decide)⟩

/-- C5 counterexample: with the counter at 500 MB, a 1-byte insert into a
130-row table deletes 125 rows (integer floor division), while the claim's
ceil formula demands 126. -/
theorem claim_C5_counterexample :
    ((DiskCacheM.mk ((List.range 130).map (fun i : Nat =>
        (⟨"p" ++ toString i, ⟨[], 0, "", 0, ""⟩, 0, (i : Int), 1048576⟩ : DiskRowM))) 500
        500).maybeCleanup 1).rows.length = 130 - 125 ∧
    (500 * 1024 * 1024 + 1 - 500 * 1024 * 1024 + (500 * 1024 * 1024) / 4
        + (1024 * 1024 - 1)) / (1024 * 1024) = 126 ∧
    (130 - 125 : Nat) ≠ 130 - 126 := by
  refine ⟨?_, by norm_num, by norm_num⟩
  have h := maybeCleanup_hit (DiskCacheM.mk ((List.range 130).map (fun i : Nat =>
      (⟨"p" ++ toString i, ⟨[], 0, "", 0, ""⟩, 0, (i : Int), 1048576⟩ : DiskRowM))) 500 500) 1
    (by norm_num)
  rw [h.1]
  rw [List.length_drop, List.length_mergeSort, List.length_map, List.length_range]
  norm_num

/-- C5 amended: when the counter total plus the new entry stays within
the 500 MiB bound the insert deletes nothing and upserts; when it exceeds
the bound, maybe_cleanup deletes the max(1, floor((current_total + new −
max + max/4) / MiB)) rows with the smallest created_at (so every deleted
row is at least as old as every kept one) before the upsert. -/
theorem claim_C5 (d : DiskCacheM) (k : String) (r : ScanResultM) (mtime : Int)
    (size : Nat) (now : Int) :
    (¬(d.currentSizeMb * 1024 * 1024 + size > d.maxSizeMb * 1024 * 1024) →
      (d.insert k r mtime size now).rows
        = ⟨k, r, mtime, now, size⟩ :: d.rows.filter (fun row => ¬(row.path = k))) ∧
    (d.currentSizeMb * 1024 * 1024 + size > d.maxSizeMb * 1024 * 1024 →
      ((d.maybeCleanup size).rows.length
          = d.rows.length - Nat.max ((d.currentSizeMb * 1024 * 1024 + size
              - d.maxSizeMb * 1024 * 1024 + (d.maxSizeMb * 1024 * 1024) / 4)
              / 1024 / 1024) 1 ∧
        (∀ x ∈ (d.rows.mergeSort byCreatedAsc).take
            (Nat.max ((d.currentSizeMb * 1024 * 1024 + size
              - d.maxSizeMb * 1024 * 1024 + (d.maxSizeMb * 1024 * 1024) / 4)
              / 1024 / 1024) 1),
          ∀ y ∈ (d.maybeCleanup size).rows, x.created_at ≤ y.created_at) ∧
        (d.insert k r mtime size now).rows
          = ⟨k, r, mtime, now, size⟩ ::
              (d.maybeCleanup size).rows.filter (fun row => ¬(row.path = k)))) := by
  constructor
  · intro h
    rw [diskInsert_rows, maybeCleanup_skip d size h]
  · intro h
    have hm := maybeCleanup_hit d size h
    refine ⟨?_, ?_, diskInsert_rows d k r mtime size now⟩
    · rw [hm.1, List.length_drop, List.length_mergeSort]
    · intro x hx y hy
      rw [hm.1] at hy
      have hp := mergeSort_byCreated_pairwise d.rows
      have h2 : List.Pairwise (fun a b : DiskRowM => a.created_at ≤ b.created_at)
          ((d.rows.mergeSort byCreatedAsc).take
              (Nat.max ((d.currentSizeMb * 1024 * 1024 + size
                - d.maxSizeMb * 1024 * 1024 + (d.maxSizeMb * 1024 * 1024) / 4)
                / 1024 / 1024) 1)
            ++ (d.rows.mergeSort byCreatedAsc).drop
              (Nat.max ((d.currentSizeMb * 1024 * 1024 + size
                - d.maxSizeMb * 1024 * 1024 + (d.maxSizeMb * 1024 * 1024) / 4)
                / 1024 / 1024) 1)) := by
        rw [List.take_append_drop]
        exact hp
      exact (List.pairwise_append.mp h2).2.2 x hx y hy

/-- C5 witness: a concrete two-row table over the bound; the cleanup count
and the before/after rows follow from the amended theorem. -/
theorem claim_C5_witness :
    ((DiskCacheM.mk [⟨"p0", ⟨[], 0, "", 0, ""⟩, 0, 0, 1048576⟩,
        ⟨"p1", ⟨[], 0, "", 0, ""⟩, 0, 1, 1048576⟩] 500 500).currentSizeMb * 1024 * 1024 + 1
      > (DiskCacheM.mk [⟨"p0", ⟨[], 0, "", 0, ""⟩, 0, 0, 1048576⟩,
        ⟨"p1", ⟨[], 0, "", 0, ""⟩, 0, 1, 1048576⟩] 500 500).maxSizeMb * 1024 * 1024) ∧
    (((DiskCacheM.mk [⟨"p0", ⟨[], 0, "", 0, ""⟩, 0, 0, 1048576⟩,
        ⟨"p1", ⟨[], 0, "", 0, ""⟩, 0, 1, 1048576⟩] 500 500).maybeCleanup 1).rows.length
        = 2 - Nat.max ((500 * 1024 * 1024 + 1 - 500 * 1024 * 1024
            + (500 * 1024 * 1024) / 4) / 1024 / 1024) 1 ∧
      (∀ x ∈ (([⟨"p0", ⟨[], 0, "", 0, ""⟩, 0, 0, 1048576⟩,
          ⟨"p1", ⟨[], 0, "", 0, ""⟩, 0, 1, 1048576⟩] :
            List DiskRowM).mergeSort byCreatedAsc).take
          (Nat.max ((500 * 1024 * 1024 + 1 - 500 * 1024 * 1024
            + (500 * 1024 * 1024) / 4) / 1024 / 1024) 1),
        ∀ y ∈ ((DiskCacheM.mk [⟨"p0", ⟨[], 0, "", 0, ""⟩, 0, 0, 1048576⟩,
          ⟨"p1", ⟨[], 0, "", 0, ""⟩, 0, 1, 1048576⟩] 500 500).maybeCleanup 1).rows,
          x.created_at ≤ y.created_at) ∧
      ((DiskCacheM.mk [⟨"p0", ⟨[], 0, "", 0, ""⟩, 0, 0, 1048576⟩,
          ⟨"p1", ⟨[], 0, "", 0, ""⟩, 0, 1, 1048576⟩] 500 500).insert "k"
            ⟨[], 0, "", 0, ""⟩ 0 1 7).rows
        = ⟨"k", ⟨[], 0, "", 0, ""⟩, 0, 7, 1⟩ ::
            ((DiskCacheM.mk [⟨"p0", ⟨[], 0, "", 0, ""⟩, 0, 0, 1048576⟩,
              ⟨"p1", ⟨[], 0, "", 0, ""⟩, 0, 1, 1048576⟩] 500 500).maybeCleanup 1).rows.filter
              (fun row => ¬(row.path = "k"))) :=
  ⟨by norm_num,
    (claim_C5 (DiskCacheM.mk [⟨"p0", ⟨[], 0, "", 0, ""⟩, 0, 0, 1048576⟩,
      ⟨"p1", ⟨[], 0, "", 0, ""⟩, 0, 1, 1048576⟩] 500 500) "k"
      ⟨[], 0, "", 0, ""⟩ 0 1 7).2 (by norm_num)⟩

/-- C8: scan_directory fails with InvalidInput exactly when the trimmed
path is empty (path empty or whitespace-only); with NotAccessible exactly
when — the earlier checks passing — the stat fails, or the target is a
directory and canonicalization fails; with NotADirectory exactly when —
the path nonblank — the target exists and is not a directory; and a call
that passes all three validations returns a result (per-entry errors in
the walk are absorbed). The checks run in source order, so each "exactly
when" is relative to the earlier checks passing. -/
theorem claim_C8 (st : EngineState) (path : String) (fsv : FsView) (probed : Int)
    (tree : FsForest) (now : Int) (el : ℚ) (dsz : Nat) (force : Bool) :
    (strTrim path = "" ↔ path.data.all Char.isWhitespace = true) ∧
    (scanDirectoryM st path fsv probed tree now el dsz force = .error .invalidInput
      ↔ strTrim path = "") ∧
    (scanDirectoryM st path fsv probed tree now el dsz force = .error .notAccessible
      ↔ strTrim path ≠ "" ∧ (fsv.statResult = none ∨
          (fsv.statResult = some true ∧ fsv.canonicalResult = none))) ∧
    (scanDirectoryM st path fsv probed tree now el dsz force = .error .notADirectory
      ↔ strTrim path ≠ "" ∧ fsv.statResult = some false) ∧
    (∀ c : String, strTrim path ≠ "" → fsv.statResult = some true →
      fsv.canonicalResult = some c →
      scanDirectoryM st path fsv probed tree now el dsz force
        = .ok (scanStep st ⟨path, c, probed, tree, now, el, dsz, force⟩)) := by
  refine ⟨strTrim_empty_iff path, ?_, ?_, ?_, ?_⟩
  · by_cases ht : strTrim path = ""
    · simp [scanDirectoryM, validateScan, ht]
    · rcases fsv with ⟨sres, cres⟩
      cases sres with
      | none => simp [scanDirectoryM, validateScan, ht]
      | some b =>
        cases b
        · simp [scanDirectoryM, validateScan, ht]
        · cases cres with
          | none => simp [scanDirectoryM, validateScan, ht]
          | some c => simp [scanDirectoryM, validateScan, ht]
  · by_cases ht : strTrim path = ""
    · simp [scanDirectoryM, validateScan, ht]
    · rcases fsv with ⟨sres, cres⟩
      cases sres with
      | none => simp [scanDirectoryM, validateScan, ht]
      | some b =>
        cases b
        · simp [scanDirectoryM, validateScan, ht]
        · cases cres with
          | none => simp [scanDirectoryM, validateScan, ht]
          | some c => simp [scanDirectoryM, validateScan, ht]
  · by_cases ht : strTrim path = ""
    · simp [scanDirectoryM, validateScan, ht]
    · rcases fsv with ⟨sres, cres⟩
      cases sres with
      | none => simp [scanDirectoryM, validateScan, ht]
      | some b =>
        cases b
        · simp [scanDirectoryM, validateScan, ht]
        · cases cres with
          | none => simp [scanDirectoryM, validateScan, ht]
          | some c => simp [scanDirectoryM, validateScan, ht]
  · intro c ht hs hc
    simp [scanDirectoryM, validateScan, ht, hs, hc]

/-- C8 witness: a nonblank path with successful stat (directory) and
canonicalization reaches the scan state machine. -/
theorem claim_C8_witness :
    strTrim "a" ≠ "" ∧
    scanDirectoryM initialEngine "a" ⟨some true, some "/a"⟩ 3 FsForest.nil 5 0 0 false
      = .ok (scanStep initialEngine ⟨"a", "/a", 3, FsForest.nil, 5, 0, 0, false⟩) :=
  ⟨by decide,
    (claim_C8 initialEngine "a" ⟨some true, some "/a"⟩ 3 FsForest.nil 5 0 0
      false).2.2.2.2 "/a" (by decide) rfl rfl⟩

/-- C10: get_memory_cache_stats returns the constants max_entries = 30,
max_size_mb = 200, current_entries = 0, current_size_mb = 0.0 for every
cache state — it never reflects the cache's actual contents. -/
theorem claim_C10 :
    (∀ c : ScanCacheM, get_memory_cache_stats c = ⟨30, 200, 0, 0⟩) ∧
    (∀ c c' : ScanCacheM, get_memory_cache_stats c = get_memory_cache_stats c') :=
  ⟨fun _ => rfl, fun _ _ => rfl⟩

end FlashDir
